import Mathlib

/-!
Verification development for the LibRecommender core:
the feature indexer (`dataset/preprocessing.py`, class `FeatureBuilder`)
and the negative sampler
(`distributed/new_features/utils/samplingNEW.py`, class `NegativeSamplingFeat`).

Shallow embedding conventions:
* numpy arrays are `List`s (2-d arrays are lists of rows, or lists of columns
  where the source builds column lists and transposes at the very end; the
  final `np.array(...).T.astype(...)` relayout is kept in column-major form,
  which carries exactly the same entries);
* float values that the claims care about are exact (labels 0.0 / 1.0,
  one-hot 1.0), so numeric cell values are rationals;
* `np.random` draws are an explicit parameter: a permutation (for
  `np.random.permutation`) and a stream `rng : Nat → Nat` of successive
  `np.random.randint(0, n_items)` draws;
* the unbounded rejection loop takes a fuel bound and returns `Option`,
  `none` meaning the loop did not finish within the fuel.
-/

namespace LibRecommender

/-! ### Feature indexer: dictionaries

`FeatureBuilder.fit` stores `self.val_index_dict = defaultdict(dict)`, a
mapping column-name → (raw categorical value → global index).  We model the
Python dict as an insertion-ordered association list. -/

abbrev Vocab := List (Nat × Nat)

abbrev VocabDict := List (String × Vocab)

/-- Python `dict.update`: keys already present keep their position and get the
new value; keys only in `new` are appended in order. -/
def vocabUpdate (old new : Vocab) : Vocab :=
  (old.map (fun p =>
    match List.lookup p.1 new with
    | some w => (p.1, w)
    | none => p))
  ++ new.filter (fun q => (List.lookup q.1 old).isNone)

/-- `self.val_index_dict[k].update(kv)` on a `defaultdict(dict)`: update the
entry for `k` in place, creating it when missing. -/
def dictUpdate (d : VocabDict) (k : String) (kv : Vocab) : VocabDict :=
  match d with
  | [] => [(k, kv)]
  | p :: rest =>
    if p.1 = k then (k, vocabUpdate p.2 kv) :: rest
    else p :: dictUpdate rest k kv

/-- Reading `self.val_index_dict[k]` without mutation (the value a lookup on
the defaultdict yields: the stored dict, or an empty one). -/
def vocabOf (d : VocabDict) (k : String) : Vocab :=
  (List.lookup k d).getD []

/-- `self.val_index_dict[k]` on a `defaultdict(dict)` at transform time:
returns the stored entry, and inserts a fresh empty entry when the key is
missing (Python `defaultdict.__missing__`). -/
def dictTouch (d : VocabDict) (k : String) : Vocab × VocabDict :=
  match List.lookup k d with
  | some voc => (voc, d)
  | none => ([], d ++ [(k, [])])

/-- Insert a value into a sorted duplicate-free list, dropping it when
already present (structural helper for `npUnique`). -/
def sortedInsert (x : Nat) : List Nat → List Nat
  | [] => [x]
  | y :: rest =>
    if x < y then x :: y :: rest
    else if x = y then y :: rest
    else y :: sortedInsert x rest

/-- `np.unique(v)`: the ascending list of distinct values of the column. -/
def npUnique (v : List Nat) : List Nat :=
  v.foldr sortedInsert []

/-! ### Feature indexer: fit

`FeatureBuilder.fit` walks the numerical columns (one fresh global index
each), then the categorical columns (`np.unique(v, return_inverse=True)`,
`indices += total_count`, vocabulary = `zip(unique_vals, np.unique(indices))`
which is `unique_vals` zipped with `total_count, total_count+1, ...`), then
optionally the user / item identity blocks. -/

/-- The numerical-column loop of `fit`: returns the per-column index lists,
the per-column value lists, and the advanced `total_count`. -/
def fitNumAux (cols : List (String × List ℚ)) (tc ts : Nat) :
    List (List Nat) × List (List ℚ) × Nat :=
  match cols with
  | [] => ([], [], tc)
  | (_, v) :: rest =>
    let r := fitNumAux rest (tc + 1) ts
    (List.replicate ts tc :: r.1, v :: r.2.1, r.2.2)

/-- The categorical-column loop of `fit`: per-column index lists, per-column
value lists (all `1.0`), the advanced `total_count` and the vocabulary dict.
`np.unique(v, return_inverse=True)` gives the sorted distinct values `u` and,
for each row, the rank of its value in `u`; the shifted inverse array is
`v.map (fun x => u.indexOf x + tc)`, and `np.unique` of it is
`tc, tc+1, ..., tc+|u|-1` since every rank occurs. -/
def fitCatAux (cols : List (String × List Nat)) (tc ts : Nat) (d : VocabDict) :
    List (List Nat) × List (List ℚ) × Nat × VocabDict :=
  match cols with
  | [] => ([], [], tc, d)
  | (k, v) :: rest =>
    let u := npUnique v
    let inds := v.map (fun x => List.indexOf x u + tc)
    let d1 := dictUpdate d k (u.zip ((List.range u.length).map (· + tc)))
    let r := fitCatAux rest (tc + u.length) ts d1
    (inds :: r.1, List.replicate ts (1 : ℚ) :: r.2.1, r.2.2)

/-- The state `fit` leaves on `self`: constructor flags plus
`val_index_dict`, `total_count`, `feature_size`. -/
structure FeatureBuilder where
  include_user_item : Bool
  n_users : Nat
  n_items : Nat
  val_index_dict : VocabDict
  total_count : Nat
  feature_size : Nat
  deriving Repr, DecidableEq

/-- What `fit` returns (`feature_indices`, `feature_values`, `feature_size`,
kept column-major) together with the fitted state. -/
structure FitResult where
  feature_indices : List (List Nat)
  feature_values : List (List ℚ)
  feature_size : Nat
  builder : FeatureBuilder
  deriving Repr, DecidableEq

/-- `FeatureBuilder.fit`.  Numerical columns first (index column
`[total_count] * train_size`, value column `v`), then categorical columns,
then, when `include_user_item`, the identity columns
`user_features + feature_size` and `item_features + feature_size + n_users`
with two all-ones value columns. -/
def fit (include_user_item : Bool) (n_users n_items : Nat)
    (categorical_features : List (String × List Nat))
    (numerical_features : List (String × List ℚ))
    (train_size : Nat) (user_features item_features : List Nat) : FitResult :=
  let rn := fitNumAux numerical_features 0 train_size
  let rc := fitCatAux categorical_features rn.2.2 train_size []
  let total_count := rc.2.2.1
  let d := rc.2.2.2
  if include_user_item then
    let userCol := user_features.map (· + total_count)
    let itemCol := item_features.map (· + (total_count + n_users))
    { feature_indices := rn.1 ++ rc.1 ++ [userCol, itemCol]
      feature_values := rn.2.1 ++ rc.2.1 ++
        [List.replicate train_size (1 : ℚ), List.replicate train_size (1 : ℚ)]
      feature_size := total_count + n_users + n_items
      builder := ⟨true, n_users, n_items, d, total_count,
        total_count + n_users + n_items⟩ }
  else
    { feature_indices := rn.1 ++ rc.1
      feature_values := rn.2.1 ++ rc.2.1
      feature_size := total_count
      builder := ⟨false, n_users, n_items, d, total_count, total_count⟩ }

/-! ### Feature indexer: transform -/

/-- The numerical-column loop of `transform`: fresh positional indices
`0, 1, ...` exactly as in `fit`, values passed through. -/
def transformNumAux (cols : List (String × List ℚ)) (ttc ts : Nat) :
    List (List Nat) × List (List ℚ) :=
  match cols with
  | [] => ([], [])
  | (_, v) :: rest =>
    let r := transformNumAux rest (ttc + 1) ts
    (List.replicate ts ttc :: r.1, v :: r.2)

/-- The categorical-column loop of `transform`:
`pd.Series(v).map(self.val_index_dict[k]).fillna(self.feature_size)` —
each value is looked up in the frozen vocabulary, a missing value becomes the
sentinel `feature_size`; reading `self.val_index_dict[k]` inserts an empty
entry when `k` is unknown (defaultdict), so the dict is threaded through. -/
def transformCatAux (d : VocabDict) (fs : Nat)
    (cols : List (String × List Nat)) (ts : Nat) :
    List (List Nat) × List (List ℚ) × VocabDict :=
  match cols with
  | [] => ([], [], d)
  | (k, v) :: rest =>
    let t := dictTouch d k
    let inds := v.map (fun x => (List.lookup x t.1).getD fs)
    let r := transformCatAux t.2 fs rest ts
    (inds :: r.1, List.replicate ts (1 : ℚ) :: r.2.1, r.2.2)

/-- `FeatureBuilder.transform`: numerical columns, categorical columns with
OOV fallback, then the identity columns offset by the frozen `total_count`
and `total_count + n_users`.  Returns the (column-major) index and value
arrays plus the post-call state (only `val_index_dict` can differ, through
the defaultdict reads). -/
def transform (b : FeatureBuilder)
    (test_cat_feat : List (String × List Nat))
    (test_num_feat : List (String × List ℚ))
    (test_size : Nat) (test_user_features test_item_features : List Nat) :
    (List (List Nat) × List (List ℚ)) × FeatureBuilder :=
  let rn := transformNumAux test_num_feat 0 test_size
  let rc := transformCatAux b.val_index_dict b.feature_size test_cat_feat test_size
  if b.include_user_item then
    let userCol := test_user_features.map (· + b.total_count)
    let itemCol := test_item_features.map (· + (b.total_count + b.n_users))
    ((rn.1 ++ rc.1 ++ [userCol, itemCol],
      rn.2 ++ rc.2.1 ++
        [List.replicate test_size (1 : ℚ), List.replicate test_size (1 : ℚ)]),
     { b with val_index_dict := rc.2.2 })
  else
    ((rn.1 ++ rc.1, rn.2 ++ rc.2.1), { b with val_index_dict := rc.2.2 })

/-! ### Negative sampler: data model

`NegativeSamplingFeat` reads `self.dataset` (per-interaction user / item
indices, per-interaction sparse index rows and dense value rows, and the
per-user consumed sets) and `self.data_info` (item count, the original
column positions of the user-side and item-side column groups, and the
per-item unique sparse / dense rows). -/

structure NSDataset where
  user_indices : List Nat
  item_indices : List Nat
  sparse_indices : List (List Nat)
  dense_values : List (List ℚ)
  train_user_consumed : Nat → List Nat

structure DataInfo where
  n_items : Nat
  user_sparse_col : List Nat
  item_sparse_col : List Nat
  item_sparse_unique : List (List Nat)
  user_dense_col : List Nat
  item_dense_col : List Nat
  item_dense_unique : List (List ℚ)

/-- `len(self.dataset)`: the number of positive interactions. -/
def dsLen (d : NSDataset) : Nat := d.user_indices.length

/-- `np.take(rows, cols, axis=1)`: select the given columns of every row. -/
def npTake (rows : List (List Nat)) (cols : List Nat) : List (List Nat) :=
  rows.map (fun r => cols.map (fun c => r.getD c 0))

/-- Dense counterpart of `npTake` (rational-valued cells). -/
def npTakeQ (rows : List (List ℚ)) (cols : List Nat) : List (List ℚ) :=
  rows.map (fun r => cols.map (fun c => r.getD c 0))

/-- `np.repeat(rows, k, axis=0)`: repeat every row `k` times in place. -/
def npRepeatRows (rows : List (List α)) (k : Nat) : List (List α) :=
  rows.flatMap (fun r => List.replicate k r)

/-- Insert a position into a list of positions sorted by the key they index
(structural helper for `argsort`). -/
def argInsert (key : Nat → Nat) (i : Nat) : List Nat → List Nat
  | [] => [i]
  | j :: rest =>
    if key i < key j then i :: j :: rest
    else j :: argInsert key i rest

/-- `np.argsort(l)`: the positions `0..len-1` sorted by the value they hold
(the source only applies it to lists of distinct column positions, where
tie order is irrelevant). -/
def argsort (l : List Nat) : List Nat :=
  (List.range l.length).foldr (argInsert (fun i => l.getD i 0)) []

/-- `col_reindex = np.arange(len(orig_cols))[np.argsort(orig_cols)]`. -/
def colReindex (origCols : List Nat) : List Nat :=
  (argsort origCols).map (fun i => (List.range origCols.length).getD i 0)

/-- `arr[:, col_reindex]` on a single row. -/
def reindexRow (row : List α) (reindex : List Nat) (d : α) : List α :=
  reindex.map (fun c => row.getD c d)

/-- `arr[mask]` for a 1-d integer index array (numpy fancy indexing). -/
def applyMask (rows : List α) (mask : List Nat) (d : α) : List α :=
  mask.map (fun i => rows.getD i d)

/-! ### Negative sampler: rejection sampling (`sample_items`) -/

/-- One negative draw:
`item_neg = np.random.randint(0, n_items)` then
`while item_neg in consumed: item_neg = np.random.randint(0, n_items)`.
`pos` is the position in the draw stream; `fuel` bounds the loop.
Returns the accepted item and the next stream position. -/
def drawOne (consumed : List Nat) (rng : Nat → Nat) (pos fuel : Nat) :
    Option (Nat × Nat) :=
  match fuel with
  | 0 => none
  | fuel + 1 =>
    if rng pos ∈ consumed then drawOne consumed rng (pos + 1) fuel
    else some (rng pos, pos + 1)

/-- The `for _ in range(self.num_neg)` loop of negative draws for one
positive interaction. -/
def drawNegs (consumed : List Nat) (rng : Nat → Nat) (pos count fuel : Nat) :
    Option (List Nat × Nat) :=
  match count with
  | 0 => some ([], pos)
  | count + 1 =>
    match drawOne consumed rng pos fuel with
    | none => none
    | some (x, pos1) =>
      match drawNegs consumed rng pos1 count fuel with
      | none => none
      | some (xs, pos2) => some (x :: xs, pos2)

/-- The interaction loop of `sample_items`: for every `(u, i)` in
`zip(user_indices, item_indices)`, append `i` and then `num_neg` rejection
draws against `train_user_consumed[u]`. -/
def sampleItemsAux (pairs : List (Nat × Nat)) (consumedOf : Nat → List Nat)
    (num_neg : Nat) (rng : Nat → Nat) (pos fuel : Nat) : Option (List Nat) :=
  match pairs with
  | [] => some []
  | (u, i) :: rest =>
    match drawNegs (consumedOf u) rng pos num_neg fuel with
    | none => none
    | some (negs, pos1) =>
      match sampleItemsAux rest consumedOf num_neg rng pos1 fuel with
      | none => none
      | some out => some ((i :: negs) ++ out)

/-- `NegativeSamplingFeat.sample_items`. -/
def sample_items (ds : NSDataset) (num_neg : Nat) (rng : Nat → Nat)
    (fuel : Nat) : Option (List Nat) :=
  sampleItemsAux (ds.user_indices.zip ds.item_indices) ds.train_user_consumed
    num_neg rng 0 fuel

/-! ### Negative sampler: sparse / dense row assembly and labels -/

/-- `NegativeSamplingFeat._sparse_negative_sampling`: replicate each
interaction's user-side sparse columns `num_neg + 1` times, look up every
sampled item's unique sparse row, concatenate row-wise and permute the
columns back into the original pre-split order with `col_reindex`. -/
def sparse_negative_sampling (ds : NSDataset) (info : DataInfo)
    (num_neg : Nat) (item_indices_sampled : List Nat) : List (List Nat) :=
  let user_sparse_sampled :=
    npRepeatRows (npTake ds.sparse_indices info.user_sparse_col) (num_neg + 1)
  let item_sparse_sampled :=
    item_indices_sampled.map (fun i => info.item_sparse_unique.getD i [])
  let orig_cols := info.user_sparse_col ++ info.item_sparse_col
  let col_reindex := colReindex orig_cols
  (List.zipWith (· ++ ·) user_sparse_sampled item_sparse_sampled).map
    (fun r => reindexRow r col_reindex 0)

/-- `NegativeSamplingFeat._dense_negative_sampling` (same shape as the sparse
path, on the dense value columns). -/
def dense_negative_sampling (ds : NSDataset) (info : DataInfo)
    (num_neg : Nat) (item_indices_sampled : List Nat) : List (List ℚ) :=
  let user_dense_sampled :=
    npRepeatRows (npTakeQ ds.dense_values info.user_dense_col) (num_neg + 1)
  let item_dense_sampled :=
    item_indices_sampled.map (fun i => info.item_dense_unique.getD i [])
  let orig_cols := info.user_dense_col ++ info.item_dense_col
  let col_reindex := colReindex orig_cols
  (List.zipWith (· ++ ·) user_dense_sampled item_dense_sampled).map
    (fun r => reindexRow r col_reindex 0)

/-- `labels = np.zeros(total); labels[::factor] = 1.0` — the strided slice
assignment: walking the zero array with a countdown that resets to
`factor - 1` each time it fires. -/
def sliceAssignAux (l : List ℚ) (factor cnt : Nat) (x : ℚ) : List ℚ :=
  match l with
  | [] => []
  | a :: rest =>
    if cnt = 0 then x :: sliceAssignAux rest factor (factor - 1) x
    else a :: sliceAssignAux rest factor (cnt - 1) x

/-- `NegativeSamplingFeat._label_negative_sampling`. -/
def label_negative_sampling (ds_len num_neg : Nat) : List ℚ :=
  let factor := num_neg + 1
  sliceAssignAux (List.replicate (ds_len * factor) (0 : ℚ)) factor 0 1

/-! ### Negative sampler: `__call__`

`np.random.seed(seed)` fixes the draw stream; we take the resulting
`np.random.permutation(range(total_length))` (`mask`) and the stream of
`randint` draws (`rng`) as parameters, so "for every seed" becomes "for
every permutation and every draw stream". -/

/-- `NegativeSamplingFeat.__call__`.  Output: the sparse array, the dense
array when `dense=True`, and the label array; when `random=True` the one
`random_mask` permutation is applied to each of the three. -/
def negSamplingCall (ds : NSDataset) (info : DataInfo) (num_neg : Nat)
    (mask : List Nat) (rng : Nat → Nat) (fuel : Nat)
    (dense random : Bool) :
    Option (List (List Nat) × Option (List (List ℚ)) × List ℚ) :=
  let label0 := label_negative_sampling (dsLen ds) num_neg
  let label_sampled := if random then applyMask label0 mask 0 else label0
  match sample_items ds num_neg rng fuel with
  | none => none
  | some item_indices_sampled =>
    let sparse0 := sparse_negative_sampling ds info num_neg item_indices_sampled
    let sparse_sampled := if random then applyMask sparse0 mask [] else sparse0
    if dense then
      let dense0 := dense_negative_sampling ds info num_neg item_indices_sampled
      let dense_sampled := if random then applyMask dense0 mask [] else dense0
      some (sparse_sampled, some dense_sampled, label_sampled)
    else
      some (sparse_sampled, none, label_sampled)

/-! ### General helper lemmas -/

theorem lookup_mem {α : Type _} {β : Type _} [DecidableEq α] {a : α} {b : β} :
    ∀ {l : List (α × β)}, List.lookup a l = some b → (a, b) ∈ l := by
  intro l
  induction l with
  | nil => intro h; simp [List.lookup] at h
  | cons p rest ih =>
    intro h
    rw [show p = (p.1, p.2) from rfl, List.lookup_cons] at h
    by_cases hax : a = p.1
    · subst hax
      simp at h
      subst h
      simp
    · have hne : (a == p.1) = false := beq_false_of_ne hax
      rw [hne] at h
      exact List.mem_cons_of_mem _ (ih h)

theorem getD_range {n i : Nat} (d : Nat) (h : i < n) :
    (List.range n).getD i d = i := by
  rw [List.getD_eq_getElem _ _ (by simpa using h)]
  simp

theorem map_getD_range {α : Type _} (l : List α) (d : α) :
    (List.range l.length).map (fun i => l.getD i d) = l := by
  apply List.ext_getElem
  · simp
  · intro n h1 h2
    simp only [List.getElem_map, List.getElem_range]
    exact (List.getD_eq_getElem l d h2).symm ▸ (List.getD_eq_getElem l d h2)

/-! ### Properties of `npUnique` (the model of `np.unique`) -/

theorem mem_sortedInsert (x y : Nat) :
    ∀ l, y ∈ sortedInsert x l ↔ y = x ∨ y ∈ l := by
  intro l
  induction l with
  | nil => simp [sortedInsert]
  | cons z rest ih =>
    by_cases h1 : x < z
    · simp [sortedInsert, h1]
    · by_cases h2 : x = z
      · subst h2
        simp [sortedInsert, h1]
      · simp [sortedInsert, h1, h2, ih]
        tauto

theorem sortedInsert_sorted (x : Nat) :
    ∀ {l}, l.Sorted (· < ·) → (sortedInsert x l).Sorted (· < ·) := by
  intro l
  induction l with
  | nil => intro _; simp [sortedInsert]
  | cons z rest ih =>
    intro hs
    rw [List.sorted_cons] at hs
    by_cases h1 : x < z
    · rw [show sortedInsert x (z :: rest) = x :: z :: rest from by
        simp [sortedInsert, h1]]
      rw [List.sorted_cons]
      refine ⟨?_, List.sorted_cons.mpr hs⟩
      intro b hb
      rcases List.mem_cons.mp hb with hb | hb
      · exact hb ▸ h1
      · exact h1.trans (hs.1 b hb)
    · by_cases h2 : x = z
      · rw [show sortedInsert x (z :: rest) = z :: rest from by
          simp [sortedInsert, h1, h2]]
        exact List.sorted_cons.mpr hs
      · rw [show sortedInsert x (z :: rest) = z :: sortedInsert x rest from by
          simp [sortedInsert, h1, h2]]
        rw [List.sorted_cons]
        refine ⟨?_, ih hs.2⟩
        intro b hb
        rcases (mem_sortedInsert x b rest).mp hb with hb | hb
        · subst hb
          omega
        · exact hs.1 b hb

theorem npUnique_sorted (v : List Nat) : (npUnique v).Sorted (· < ·) := by
  induction v with
  | nil => simp [npUnique]
  | cons a rest ih => exact sortedInsert_sorted a ih

theorem mem_npUnique (v : List Nat) (y : Nat) : y ∈ npUnique v ↔ y ∈ v := by
  induction v with
  | nil => simp [npUnique]
  | cons a rest ih =>
    show y ∈ sortedInsert a (npUnique rest) ↔ _
    rw [mem_sortedInsert, ih]
    simp

theorem npUnique_nodup (v : List Nat) : (npUnique v).Nodup :=
  (npUnique_sorted v).imp Nat.ne_of_lt

theorem npUnique_length (v : List Nat) :
    (npUnique v).length = v.toFinset.card := by
  have h1 : (npUnique v).toFinset = v.toFinset := by
    ext y
    simp [List.mem_toFinset, mem_npUnique]
  rw [← h1, List.toFinset_card_of_nodup (npUnique_nodup v)]

/-! ### Properties of `argsort` (the model of `np.argsort`) -/

theorem mem_argInsert (key : Nat → Nat) (i b : Nat) :
    ∀ l, b ∈ argInsert key i l ↔ b = i ∨ b ∈ l := by
  intro l
  induction l with
  | nil => simp [argInsert]
  | cons j rest ih =>
    by_cases h1 : key i < key j
    · simp [argInsert, h1]
    · simp [argInsert, h1, ih]
      tauto

theorem argInsert_perm (key : Nat → Nat) (i : Nat) :
    ∀ l, List.Perm (argInsert key i l) (i :: l) := by
  intro l
  induction l with
  | nil => simp [argInsert]
  | cons j rest ih =>
    by_cases h1 : key i < key j
    · simp [argInsert, h1]
    · rw [show argInsert key i (j :: rest) = j :: argInsert key i rest from by
        simp [argInsert, h1]]
      exact (ih.cons j).trans (List.Perm.swap i j rest)

theorem argsort_perm (l : List Nat) :
    List.Perm (argsort l) (List.range l.length) := by
  unfold argsort
  generalize List.range l.length = idx
  induction idx with
  | nil => simp
  | cons i rest ih =>
    exact (argInsert_perm _ i _).trans (ih.cons i)

theorem argInsert_pairwise (key : Nat → Nat) (i : Nat) :
    ∀ {l}, List.Pairwise (fun a b => key a ≤ key b) l →
      List.Pairwise (fun a b => key a ≤ key b) (argInsert key i l) := by
  intro l
  induction l with
  | nil => intro _; simp [argInsert]
  | cons j rest ih =>
    intro hs
    rw [List.pairwise_cons] at hs
    by_cases h1 : key i < key j
    · rw [show argInsert key i (j :: rest) = i :: j :: rest from by
        simp [argInsert, h1]]
      rw [List.pairwise_cons]
      refine ⟨?_, List.pairwise_cons.mpr hs⟩
      intro b hb
      rcases List.mem_cons.mp hb with hb | hb
      · exact hb ▸ Nat.le_of_lt h1
      · exact Nat.le_of_lt (Nat.lt_of_lt_of_le h1 (hs.1 b hb))
    · rw [show argInsert key i (j :: rest) = j :: argInsert key i rest from by
        simp [argInsert, h1]]
      rw [List.pairwise_cons]
      refine ⟨?_, ih hs.2⟩
      intro b hb
      rcases (mem_argInsert key i b rest).mp hb with hb | hb
      · exact hb ▸ Nat.le_of_not_lt h1
      · exact hs.1 b hb

theorem argsort_pairwise (l : List Nat) :
    List.Pairwise (fun a b => l.getD a 0 ≤ l.getD b 0) (argsort l) := by
  unfold argsort
  generalize List.range l.length = idx
  induction idx with
  | nil => simp
  | cons i rest ih => exact argInsert_pairwise _ i ih

/-- Stepping a residue: for `c < f`, `(k+1) % f` hits `(c+1) % f` exactly
when `k % f` hits `c`. -/
theorem mod_succ_iff {f c : Nat} (k : Nat) (hc : c < f) :
    (k + 1) % f = (c + 1) % f ↔ k % f = c := by
  constructor
  · intro h
    have h2 : Nat.ModEq f k c := Nat.ModEq.add_right_cancel' 1 h
    rw [Nat.ModEq, Nat.mod_eq_of_lt hc] at h2
    exact h2
  · intro h
    have h2 : Nat.ModEq f k c := by
      rw [Nat.ModEq, h, Nat.mod_eq_of_lt hc]
    exact h2.add_right 1

/-! ### Labels (claim C6) -/

theorem sliceAssignAux_length (x : ℚ) :
    ∀ (l : List ℚ) (factor cnt : Nat),
      (sliceAssignAux l factor cnt x).length = l.length := by
  intro l
  induction l with
  | nil => intro factor cnt; simp [sliceAssignAux]
  | cons a rest ih =>
    intro factor cnt
    by_cases hc : cnt = 0 <;> simp [sliceAssignAux, hc, ih]

theorem sliceAssignAux_getD (x d : ℚ) :
    ∀ (l : List ℚ) (factor cnt k : Nat), cnt < factor →
      (sliceAssignAux l factor cnt x).getD k d =
        if k % factor = cnt ∧ k < l.length then x else l.getD k d := by
  intro l
  induction l with
  | nil => intro factor cnt k h; simp [sliceAssignAux]
  | cons a rest ih =>
    intro factor cnt k h
    by_cases hc : cnt = 0
    · subst hc
      rw [show sliceAssignAux (a :: rest) factor 0 x
            = x :: sliceAssignAux rest factor (factor - 1) x from by
          simp [sliceAssignAux]]
      cases k with
      | zero => simp
      | succ k =>
        rw [List.getD_cons_succ, List.getD_cons_succ,
          ih factor (factor - 1) k (by omega)]
        have hiff : (k + 1) % factor = 0 ↔ k % factor = factor - 1 := by
          have h2 := mod_succ_iff (f := factor) (c := factor - 1) k (by omega)
          rw [show factor - 1 + 1 = factor from by omega, Nat.mod_self] at h2
          exact h2
        simp only [List.length_cons, Nat.add_lt_add_iff_right, hiff]
    · rw [show sliceAssignAux (a :: rest) factor cnt x
            = a :: sliceAssignAux rest factor (cnt - 1) x from by
          simp [sliceAssignAux, hc]]
      cases k with
      | zero =>
        have hne : ¬ ((0 : Nat) % factor = cnt ∧ 0 < (a :: rest).length) := by
          rw [Nat.zero_mod]
          exact fun hh => hc hh.1.symm
        rw [if_neg hne]
        simp
      | succ k =>
        rw [List.getD_cons_succ, List.getD_cons_succ,
          ih factor (cnt - 1) k (by omega)]
        have hiff : (k + 1) % factor = cnt ↔ k % factor = cnt - 1 := by
          have h2 := mod_succ_iff (f := factor) (c := cnt - 1) k (by omega)
          rw [show cnt - 1 + 1 = cnt from by omega, Nat.mod_eq_of_lt h] at h2
          exact h2
        simp only [List.length_cons, Nat.add_lt_add_iff_right, hiff]

theorem label_negative_sampling_length (ds_len num_neg : Nat) :
    (label_negative_sampling ds_len num_neg).length = ds_len * (num_neg + 1) := by
  unfold label_negative_sampling
  rw [sliceAssignAux_length, List.length_replicate]

theorem label_negative_sampling_getD (ds_len num_neg k : Nat)
    (hk : k < ds_len * (num_neg + 1)) :
    (label_negative_sampling ds_len num_neg).getD k 0 =
      if k % (num_neg + 1) = 0 then 1 else 0 := by
  unfold label_negative_sampling
  rw [sliceAssignAux_getD _ _ _ _ _ _ (Nat.succ_pos num_neg)]
  rw [List.length_replicate]
  by_cases hm : k % (num_neg + 1) = 0
  · rw [if_pos ⟨hm, hk⟩, if_pos hm]
  · rw [if_neg (fun hh => hm hh.1), if_neg hm]
    rw [List.getD_eq_getElem _ _ (by simpa using hk)]
    simp

/-- C6: the unshuffled label array has length `len(dataset) * (num_neg + 1)`,
holds `1.0` exactly at the indices that are multiples of `num_neg + 1` and
`0.0` elsewhere; for `num_neg = 2` over 4 positives it is the 12-element
array `[1,0,0,1,0,0,1,0,0,1,0,0]`. -/
theorem label_correctness (ds_len num_neg : Nat) :
    (label_negative_sampling ds_len num_neg).length = ds_len * (num_neg + 1) ∧
    (∀ k, k < ds_len * (num_neg + 1) →
      (label_negative_sampling ds_len num_neg).getD k 0 =
        if k % (num_neg + 1) = 0 then 1 else 0) ∧
    label_negative_sampling 4 2 = [1, 0, 0, 1, 0, 0, 1, 0, 0, 1, 0, 0] := by
  refine ⟨label_negative_sampling_length ds_len num_neg, ?_, by decide⟩
  intro k hk
  exact label_negative_sampling_getD ds_len num_neg k hk

theorem label_correctness_witness :
    (label_negative_sampling 4 2).getD 3 0 = if 3 % (2 + 1) = 0 then 1 else 0 :=
  (label_correctness 4 2).2.1 3 (by decide)

/-! ### Feature size (claim C5) -/

theorem fitNumAux_total (ts : Nat) :
    ∀ (cols : List (String × List ℚ)) (tc : Nat),
      (fitNumAux cols tc ts).2.2 = tc + cols.length := by
  intro cols
  induction cols with
  | nil => intro tc; simp [fitNumAux]
  | cons c rest ih =>
    intro tc
    show (fitNumAux rest (tc + 1) ts).2.2 = tc + (rest.length + 1)
    rw [ih (tc + 1)]
    omega

theorem fitCatAux_total (ts : Nat) :
    ∀ (cols : List (String × List Nat)) (tc : Nat) (d : VocabDict),
      (fitCatAux cols tc ts d).2.2.1 =
        tc + (cols.map (fun p => p.2.toFinset.card)).sum := by
  intro cols
  induction cols with
  | nil => intro tc d; simp [fitCatAux]
  | cons c rest ih =>
    intro tc d
    show (fitCatAux rest (tc + (npUnique c.2).length) ts _).2.2.1 = _
    rw [ih]
    rw [npUnique_length c.2]
    simp
    omega

/-- C5 (amended): `feature_size` equals the number of numerical columns plus
the sum over categorical columns of their distinct-value counts, plus
`n_users + n_items` when the identity blocks are enabled; the spec's concrete
scenario (3 numerical columns, 2 categorical columns with 2 and 3 distinct
values, identity disabled) therefore yields `feature_size = 8`. -/
theorem feature_size_formula (include_user_item : Bool) (n_users n_items : Nat)
    (cat : List (String × List Nat)) (num : List (String × List ℚ))
    (ts : Nat) (uf itf : List Nat) :
    (fit include_user_item n_users n_items cat num ts uf itf).feature_size =
      num.length + (cat.map (fun p => p.2.toFinset.card)).sum +
        (if include_user_item then n_users + n_items else 0) ∧
    (fit false 0 0 [("c1", [0, 1]), ("c2", [0, 1, 2])]
      [("n1", [0, 0]), ("n2", [0, 0]), ("n3", [0, 0])] 2 [] []).feature_size = 8 := by
  constructor
  · have htot : (fitCatAux cat (fitNumAux num 0 ts).2.2 ts []).2.2.1 =
        num.length + (cat.map (fun p => p.2.toFinset.card)).sum := by
      rw [fitCatAux_total, fitNumAux_total]
      omega
    cases include_user_item <;> simp [fit, htot] <;> omega
  · decide

/-- C5 counterexample: the spec's scenario claims `feature_size == 5`, but on
the code 3 numerical columns contribute 3 indices and the categorical columns
contribute 2 + 3, giving `feature_size = 8 ≠ 5`. -/
theorem feature_size_scenario_refuted :
    (fit false 0 0 [("c1", [0, 1]), ("c2", [0, 1, 2])]
      [("n1", [0, 0]), ("n2", [0, 0]), ("n3", [0, 0])] 2 [] []).feature_size = 8 ∧
    ¬ (fit false 0 0 [("c1", [0, 1]), ("c2", [0, 1, 2])]
      [("n1", [0, 0]), ("n2", [0, 0]), ("n3", [0, 0])] 2 [] []).feature_size = 5 := by
  decide

/-! ### Association-list lemmas for the vocabulary dictionaries -/

theorem lookup_eq_none_keys {β : Type _} {k : String} :
    ∀ {l : List (String × β)}, k ∉ l.map Prod.fst → List.lookup k l = none := by
  intro l
  induction l with
  | nil => intro _; rfl
  | cons p rest ih =>
    intro h
    have h1 : k ≠ p.1 := by
      intro he
      exact h (by simp [he])
    rw [show p = (p.1, p.2) from rfl, List.lookup_cons, beq_false_of_ne h1]
    exact ih (fun hm => h (by simp [hm]))

theorem lookup_isSome_keys {β : Type _} {k : String} :
    ∀ {l : List (String × β)}, k ∈ l.map Prod.fst →
      ∃ v, List.lookup k l = some v := by
  intro l
  induction l with
  | nil => intro h; simp at h
  | cons p rest ih =>
    intro h
    by_cases h1 : k = p.1
    · exact ⟨p.2, by rw [show p = (p.1, p.2) from rfl, List.lookup_cons,
        beq_iff_eq.mpr h1]⟩
    · have h2 : k ∈ rest.map Prod.fst := by
        rcases List.mem_map.mp h with ⟨q, hq, he⟩
        rcases List.mem_cons.mp hq with hq | hq
        · exact absurd (show k = p.1 from by rw [← he, hq]) h1
        · exact List.mem_map.mpr ⟨q, hq, he⟩
      rcases ih h2 with ⟨v, hv⟩
      exact ⟨v, by rw [show p = (p.1, p.2) from rfl, List.lookup_cons,
        beq_false_of_ne h1, hv]⟩

theorem lookup_append_left {β : Type _} {k : String} {b : β} :
    ∀ {l1 l2 : List (String × β)}, List.lookup k l1 = some b →
      List.lookup k (l1 ++ l2) = some b := by
  intro l1 l2
  induction l1 with
  | nil => intro h; simp [List.lookup] at h
  | cons p rest ih =>
    intro h
    rw [show p = (p.1, p.2) from rfl] at h ⊢
    rw [List.cons_append, List.lookup_cons]
    rw [List.lookup_cons] at h
    cases hbe : (k == p.1) with
    | true => rw [hbe] at h; exact h
    | false => rw [hbe] at h; exact ih h

theorem lookup_append_none {β : Type _} {k : String} :
    ∀ {l1 l2 : List (String × β)}, List.lookup k l1 = none →
      List.lookup k (l1 ++ l2) = List.lookup k l2 := by
  intro l1 l2
  induction l1 with
  | nil => intro _; rfl
  | cons p rest ih =>
    intro h
    rw [show p = (p.1, p.2) from rfl] at h ⊢
    rw [List.cons_append, List.lookup_cons]
    rw [List.lookup_cons] at h
    cases hbe : (k == p.1) with
    | true => rw [hbe] at h; exact Option.noConfusion h
    | false => rw [hbe] at h; exact ih h

theorem dictUpdate_keys (k : String) (kv : Vocab) :
    ∀ (d : VocabDict) (k' : String),
      k' ∈ (dictUpdate d k kv).map Prod.fst ↔
        k' ∈ d.map Prod.fst ∨ k' = k := by
  intro d
  induction d with
  | nil => intro k'; simp [dictUpdate, eq_comm]
  | cons p rest ih =>
    intro k'
    by_cases h1 : p.1 = k
    · rw [show dictUpdate (p :: rest) k kv
          = (k, vocabUpdate p.2 kv) :: rest from by
        rw [show p :: rest = (p.1, p.2) :: rest from rfl]
        simp [dictUpdate, h1]]
      simp [h1]
      tauto
    · rw [show dictUpdate (p :: rest) k kv = p :: dictUpdate rest k kv from by
        rw [show p :: rest = (p.1, p.2) :: rest from rfl]
        simp [dictUpdate, h1]]
      simp [ih]
      tauto

theorem fitCatAux_keys (ts : Nat) :
    ∀ (cols : List (String × List Nat)) (tc : Nat) (d : VocabDict)
      (k' : String),
      k' ∈ ((fitCatAux cols tc ts d).2.2.2).map Prod.fst ↔
        k' ∈ d.map Prod.fst ∨ k' ∈ cols.map Prod.fst := by
  intro cols
  induction cols with
  | nil => intro tc d k'; simp [fitCatAux]
  | cons c rest ih =>
    intro tc d k'
    show k' ∈ ((fitCatAux rest _ ts (dictUpdate d c.1 _)).2.2.2).map Prod.fst ↔ _
    rw [ih, dictUpdate_keys]
    simp
    tauto

theorem dictTouch_fst (d : VocabDict) (k : String) :
    (dictTouch d k).1 = vocabOf d k := by
  unfold dictTouch vocabOf
  cases h : List.lookup k d <;> simp [h]

theorem dictTouch_vocabOf (d : VocabDict) (k k' : String) :
    vocabOf (dictTouch d k).2 k' = vocabOf d k' := by
  unfold dictTouch
  cases h : List.lookup k d with
  | some voc => rfl
  | none =>
    show vocabOf (d ++ [(k, [])]) k' = vocabOf d k'
    unfold vocabOf
    by_cases h1 : k' = k
    · subst h1
      rw [lookup_append_none h, h]
      simp [List.lookup]
    · cases h2 : List.lookup k' d with
      | some voc2 => rw [lookup_append_left h2]
      | none =>
        rw [lookup_append_none h2]
        rw [show List.lookup k' [(k, ([] : Vocab))] = none from by
          rw [List.lookup_cons, beq_false_of_ne h1]
          rfl]

/-! ### Transform: structure lemmas -/

theorem transformNumAux_length (ts : Nat) :
    ∀ (cols : List (String × List ℚ)) (ttc : Nat),
      (transformNumAux cols ttc ts).1.length = cols.length := by
  intro cols
  induction cols with
  | nil => intro ttc; simp [transformNumAux]
  | cons c rest ih =>
    intro ttc
    show (List.replicate ts ttc :: (transformNumAux rest (ttc + 1) ts).1).length = _
    simp [ih]

theorem transformCatAux_vocabOf (fs ts : Nat) :
    ∀ (cols : List (String × List Nat)) (d : VocabDict) (k' : String),
      vocabOf (transformCatAux d fs cols ts).2.2 k' = vocabOf d k' := by
  intro cols
  induction cols with
  | nil => intro d k'; rfl
  | cons c rest ih =>
    intro d k'
    show vocabOf (transformCatAux (dictTouch d c.1).2 fs rest ts).2.2 k' = _
    rw [ih, dictTouch_vocabOf]

theorem transformCatAux_congr (fs ts : Nat) :
    ∀ (cols : List (String × List Nat)) (d d' : VocabDict),
      (∀ k, vocabOf d k = vocabOf d' k) →
      (transformCatAux d fs cols ts).1 = (transformCatAux d' fs cols ts).1 ∧
      (transformCatAux d fs cols ts).2.1 = (transformCatAux d' fs cols ts).2.1 := by
  intro cols
  induction cols with
  | nil => intro d d' _; exact ⟨rfl, rfl⟩
  | cons c rest ih =>
    intro d d' h
    have hfst : (dictTouch d c.1).1 = (dictTouch d' c.1).1 := by
      rw [dictTouch_fst, dictTouch_fst, h]
    have hrec := ih (dictTouch d c.1).2 (dictTouch d' c.1).2 (fun k => by
      rw [dictTouch_vocabOf, dictTouch_vocabOf, h])
    constructor
    · show c.2.map (fun x => (List.lookup x (dictTouch d c.1).1).getD fs) ::
        (transformCatAux (dictTouch d c.1).2 fs rest ts).1 = _
      rw [hfst, hrec.1]
      rfl
    · show List.replicate ts (1 : ℚ) ::
        (transformCatAux (dictTouch d c.1).2 fs rest ts).2.1 = _
      rw [hrec.2]
      rfl

theorem transformCatAux_dict_frozen (fs ts : Nat) :
    ∀ (cols : List (String × List Nat)) (d : VocabDict),
      (∀ p ∈ cols, p.1 ∈ d.map Prod.fst) →
      (transformCatAux d fs cols ts).2.2 = d := by
  intro cols
  induction cols with
  | nil => intro d _; rfl
  | cons c rest ih =>
    intro d h
    rcases lookup_isSome_keys (h c (List.mem_cons_self c rest)) with ⟨v, hv⟩
    have htouch : dictTouch d c.1 = (v, d) := by
      unfold dictTouch
      rw [hv]
    show (transformCatAux (dictTouch d c.1).2 fs rest ts).2.2 = d
    rw [htouch]
    exact ih d (fun p hp => h p (List.mem_cons_of_mem c hp))

/-! ### Transform: state effects and unknown columns (claims C9, C10) -/

theorem fit_builder_dict (include_user_item : Bool) (n_users n_items : Nat)
    (cat : List (String × List Nat)) (num : List (String × List ℚ))
    (ts : Nat) (uf itf : List Nat) :
    (fit include_user_item n_users n_items cat num ts uf itf).builder.val_index_dict
      = (fitCatAux cat (fitNumAux num 0 ts).2.2 ts []).2.2.2 := by
  cases include_user_item <;> rfl

theorem transform_snd (b : FeatureBuilder) (tcat : List (String × List Nat))
    (tnum : List (String × List ℚ)) (ts2 : Nat) (tu ti : List Nat) :
    (transform b tcat tnum ts2 tu ti).2
      = { b with val_index_dict :=
          (transformCatAux b.val_index_dict b.feature_size tcat ts2).2.2 } := by
  cases hb : b.include_user_item <;> simp [transform, hb]

theorem transform_fst_congr (b : FeatureBuilder) (d2 : VocabDict)
    (h : ∀ k, vocabOf d2 k = vocabOf b.val_index_dict k)
    (tcat : List (String × List Nat)) (tnum : List (String × List ℚ))
    (ts2 : Nat) (tu ti : List Nat) :
    (transform { b with val_index_dict := d2 } tcat tnum ts2 tu ti).1
      = (transform b tcat tnum ts2 tu ti).1 := by
  have hc := transformCatAux_congr b.feature_size ts2 tcat d2 b.val_index_dict h
  cases hb : b.include_user_item <;> simp [transform, hb, hc.1, hc.2]

/-- The first categorical column of the transform output sits right after the
numerical block and is the vocabulary lookup with OOV fallback
`feature_size`. -/
theorem transform_first_cat_col (b : FeatureBuilder) (k : String) (v : List Nat)
    (restc : List (String × List Nat)) (tnum : List (String × List ℚ))
    (ts2 : Nat) (tu ti : List Nat) :
    ((transform b ((k, v) :: restc) tnum ts2 tu ti).1.1).getD tnum.length []
      = v.map (fun x =>
          (List.lookup x (vocabOf b.val_index_dict k)).getD b.feature_size) := by
  have hlen := transformNumAux_length ts2 tnum 0
  have hcat : (transformCatAux b.val_index_dict b.feature_size
        ((k, v) :: restc) ts2).1
      = (v.map fun x =>
          (List.lookup x (vocabOf b.val_index_dict k)).getD b.feature_size) ::
        (transformCatAux (dictTouch b.val_index_dict k).2 b.feature_size
          restc ts2).1 := by
    show (v.map fun x =>
        (List.lookup x (dictTouch b.val_index_dict k).1).getD b.feature_size) :: _
      = _
    rw [dictTouch_fst]
  cases hb : b.include_user_item
  · rw [show (transform b ((k, v) :: restc) tnum ts2 tu ti).1.1
        = (transformNumAux tnum 0 ts2).1 ++
          (transformCatAux b.val_index_dict b.feature_size ((k, v) :: restc) ts2).1
        from by simp [transform, hb]]
    rw [hcat, List.getD_append_right ((transformNumAux tnum 0 ts2).1) _ _
      tnum.length (le_of_eq hlen)]
    rw [hlen, Nat.sub_self, List.getD_cons_zero]
  · rw [show (transform b ((k, v) :: restc) tnum ts2 tu ti).1.1
        = ((transformNumAux tnum 0 ts2).1 ++
          (transformCatAux b.val_index_dict b.feature_size ((k, v) :: restc) ts2).1) ++
          [tu.map (· + b.total_count),
           ti.map (· + (b.total_count + b.n_users))]
        from by simp [transform, hb]]
    rw [List.append_assoc, List.getD_append_right ((transformNumAux tnum 0 ts2).1) _ _
      tnum.length (le_of_eq hlen)]
    rw [hlen, Nat.sub_self, hcat, List.cons_append, List.getD_cons_zero]

/-- C9 (amended): `transform` does not raise on a categorical column name
never seen at fit: the defaultdict yields an empty vocabulary, so every value
of that column silently resolves to the OOV sentinel `feature_size` and the
call produces normal output. -/
theorem transform_unknown_cat_column (include_user_item : Bool)
    (n_users n_items : Nat) (cat : List (String × List Nat))
    (num : List (String × List ℚ)) (ts : Nat) (uf itf : List Nat)
    (k : String) (v : List Nat) (tnum : List (String × List ℚ))
    (ts2 : Nat) (tu ti : List Nat)
    (hk : k ∉ cat.map Prod.fst) :
    ((transform (fit include_user_item n_users n_items cat num ts uf itf).builder
        [(k, v)] tnum ts2 tu ti).1.1).getD tnum.length []
      = v.map (fun _ =>
          (fit include_user_item n_users n_items cat num ts uf itf).builder.feature_size) := by
  rw [transform_first_cat_col]
  have hnone : vocabOf
      (fit include_user_item n_users n_items cat num ts uf itf).builder.val_index_dict
      k = [] := by
    unfold vocabOf
    have hn : List.lookup k
        (fit include_user_item n_users n_items cat num ts uf itf).builder.val_index_dict
        = none := by
      apply lookup_eq_none_keys
      rw [fit_builder_dict]
      intro hmem
      rcases (fitCatAux_keys ts cat _ [] k).mp hmem with h | h
      · simp at h
      · exact hk h
    rw [hn]
    rfl
  rw [hnone]
  simp [List.lookup]

theorem transform_unknown_cat_column_witness :
    ((transform (fit false 0 0 [("a", [5, 5])] [] 2 [] []).builder
        [("b", [7])] [] 1 [] []).1.1).getD 0 []
      = [7].map (fun _ =>
          (fit false 0 0 [("a", [5, 5])] [] 2 [] []).builder.feature_size) :=
  transform_unknown_cat_column false 0 0 [("a", [5, 5])] [] 2 [] []
    "b" [7] [] 1 [] [] (by decide)

/-- C9 counterexample: `transform` on a fitted builder, given a categorical
column name (`"b"`) that does not match the fitted column set (`{"a"}`),
is not surfaced as an error: it returns a normal output (the single value
maps to the OOV sentinel `1 = feature_size`) and even extends the stored
dict with an empty entry. -/
theorem transform_unknown_cat_column_cx :
    (transform (fit false 0 0 [("a", [5, 5])] [] 2 [] []).builder
        [("b", [7])] [] 1 [] [])
      = (([[1]], [[1]]),
         ⟨false, 0, 0, [("a", [(5, 0)]), ("b", [])], 1, 1⟩) := by
  decide

/-- C10 (amended): `transform` leaves `total_count`, `feature_size`,
`n_users`, `n_items` unchanged, and leaves `val_index_dict` unchanged
provided every supplied categorical column name was seen at fit; an unseen
name appends an empty vocabulary entry (Python defaultdict), but even then
repeating the call with identical inputs returns identical outputs. -/
theorem transform_state_effects (b : FeatureBuilder)
    (tcat : List (String × List Nat)) (tnum : List (String × List ℚ))
    (ts2 : Nat) (tu ti : List Nat) :
    (transform b tcat tnum ts2 tu ti).2.total_count = b.total_count ∧
    (transform b tcat tnum ts2 tu ti).2.feature_size = b.feature_size ∧
    (transform b tcat tnum ts2 tu ti).2.n_users = b.n_users ∧
    (transform b tcat tnum ts2 tu ti).2.n_items = b.n_items ∧
    ((∀ p ∈ tcat, p.1 ∈ b.val_index_dict.map Prod.fst) →
      (transform b tcat tnum ts2 tu ti).2 = b) ∧
    (transform ((transform b tcat tnum ts2 tu ti).2) tcat tnum ts2 tu ti).1
      = (transform b tcat tnum ts2 tu ti).1 := by
  refine ⟨by rw [transform_snd], by rw [transform_snd], by rw [transform_snd],
    by rw [transform_snd], ?_, ?_⟩
  · intro h
    rw [transform_snd, transformCatAux_dict_frozen _ _ _ _ h]
  · rw [transform_snd]
    exact transform_fst_congr b _
      (fun k => transformCatAux_vocabOf _ _ _ _ _) tcat tnum ts2 tu ti

theorem transform_state_effects_witness :
    (transform (fit false 0 0 [("a", [5, 5])] [] 2 [] []).builder
        [("a", [5])] [] 1 [] []).2
      = (fit false 0 0 [("a", [5, 5])] [] 2 [] []).builder :=
  (transform_state_effects _ [("a", [5])] [] 1 [] []).2.2.2.2.1 (by decide)

/-- C10 counterexample: a single `transform` call whose categorical column
name (`"b"`) was not seen at fit mutates the builder's `val_index_dict`
(the defaultdict read inserts an empty entry), so the fit-time state is not
identical before and after the call. -/
theorem transform_mutates_state_cx :
    ¬ ((transform (fit false 0 0 [("a", [5, 5])] [] 2 [] []).builder
        [("b", [7])] [] 1 [] []).2.val_index_dict
      = (fit false 0 0 [("a", [5, 5])] [] 2 [] []).builder.val_index_dict) := by
  decide

/-! ### Fit vocabulary machinery (claims C3, C4, C8) -/

theorem vocabUpdate_nil (kv : Vocab) : vocabUpdate [] kv = kv := by
  unfold vocabUpdate
  simp [List.lookup]

theorem dictUpdate_vocabOf_self (k : String) (kv : Vocab) :
    ∀ (d : VocabDict), vocabOf (dictUpdate d k kv) k
      = vocabUpdate (vocabOf d k) kv := by
  intro d
  induction d with
  | nil =>
    show vocabOf [(k, kv)] k = vocabUpdate (vocabOf [] k) kv
    unfold vocabOf
    simp [List.lookup, vocabUpdate_nil]
  | cons p rest ih =>
    by_cases h1 : p.1 = k
    · rw [show dictUpdate (p :: rest) k kv
          = (k, vocabUpdate p.2 kv) :: rest from by
        rw [show p :: rest = (p.1, p.2) :: rest from rfl]
        simp [dictUpdate, h1]]
      unfold vocabOf
      rw [List.lookup_cons, beq_self_eq_true]
      rw [show p :: rest = (p.1, p.2) :: rest from rfl, List.lookup_cons,
        beq_iff_eq.mpr h1.symm]
      rfl
    · rw [show dictUpdate (p :: rest) k kv = p :: dictUpdate rest k kv from by
        rw [show p :: rest = (p.1, p.2) :: rest from rfl]
        simp [dictUpdate, h1]]
      have h2 : (k == p.1) = false := beq_false_of_ne (fun he => h1 he.symm)
      unfold vocabOf
      rw [show p :: dictUpdate rest k kv = (p.1, p.2) :: dictUpdate rest k kv
        from rfl, List.lookup_cons, h2]
      rw [show p :: rest = (p.1, p.2) :: rest from rfl, List.lookup_cons, h2]
      exact ih

theorem dictUpdate_vocabOf_ne (k k' : String) (kv : Vocab) (hne : k' ≠ k) :
    ∀ (d : VocabDict), vocabOf (dictUpdate d k kv) k' = vocabOf d k' := by
  intro d
  induction d with
  | nil =>
    show vocabOf [(k, kv)] k' = vocabOf [] k'
    unfold vocabOf
    rw [List.lookup_cons, beq_false_of_ne hne]
  | cons p rest ih =>
    by_cases h1 : p.1 = k
    · rw [show dictUpdate (p :: rest) k kv
          = (k, vocabUpdate p.2 kv) :: rest from by
        rw [show p :: rest = (p.1, p.2) :: rest from rfl]
        simp [dictUpdate, h1]]
      unfold vocabOf
      rw [List.lookup_cons, beq_false_of_ne hne]
      rw [show p :: rest = (p.1, p.2) :: rest from rfl, List.lookup_cons,
        beq_false_of_ne (h1 ▸ hne)]
    · rw [show dictUpdate (p :: rest) k kv = p :: dictUpdate rest k kv from by
        rw [show p :: rest = (p.1, p.2) :: rest from rfl]
        simp [dictUpdate, h1]]
      unfold vocabOf
      rw [show p :: dictUpdate rest k kv = (p.1, p.2) :: dictUpdate rest k kv
        from rfl, List.lookup_cons]
      rw [show p :: rest = (p.1, p.2) :: rest from rfl, List.lookup_cons]
      cases hbe : (k' == p.1) with
      | true => rfl
      | false => exact ih

theorem fitCatAux_vocabOf_preserved (ts : Nat) :
    ∀ (cols : List (String × List Nat)) (tc : Nat) (d : VocabDict)
      (k : String), k ∉ cols.map Prod.fst →
      vocabOf (fitCatAux cols tc ts d).2.2.2 k = vocabOf d k := by
  intro cols
  induction cols with
  | nil => intro tc d k _; rfl
  | cons c rest ih =>
    intro tc d k hk
    have hk1 : k ∉ rest.map Prod.fst := fun h => hk (by simp [h])
    have hk2 : k ≠ c.1 := fun h => hk (by simp [h])
    show vocabOf (fitCatAux rest _ ts (dictUpdate d c.1 _)).2.2.2 k = _
    rw [ih _ _ k hk1, dictUpdate_vocabOf_ne c.1 k _ hk2]

/-- In the dict produced by the categorical loop of `fit`, the entry of the
`i`-th column is its sorted distinct values zipped with the consecutive
indices starting at that column's offset, and the `i`-th column of the
returned `feature_indices` holds exactly those indices. -/
theorem fitCatAux_column_spec (ts : Nat) :
    ∀ (cols : List (String × List Nat)) (tc : Nat) (d : VocabDict),
      (cols.map Prod.fst).Nodup →
      (∀ p ∈ cols, p.1 ∉ d.map Prod.fst) →
      ∀ i, i < cols.length →
        ∃ off,
          (fitCatAux cols tc ts d).1.getD i []
            = (cols.getD i ("", [])).2.map
                (fun x => List.indexOf x (npUnique (cols.getD i ("", [])).2) + off) ∧
          vocabOf (fitCatAux cols tc ts d).2.2.2 (cols.getD i ("", [])).1
            = (npUnique (cols.getD i ("", [])).2).zip
                ((List.range (npUnique (cols.getD i ("", [])).2).length).map
                  (· + off)) := by
  intro cols
  induction cols with
  | nil => intro tc d _ _ i hi; simp at hi
  | cons c rest ih =>
    intro tc d hnd hfresh i hi
    have hnd1 : (rest.map Prod.fst).Nodup := by
      simpa using hnd.sublist (by simp)
    have hc1 : c.1 ∉ rest.map Prod.fst := by
      have := hnd
      rw [show (c :: rest).map Prod.fst = c.1 :: rest.map Prod.fst from by simp,
        List.nodup_cons] at this
      exact this.1
    cases i with
    | zero =>
      refine ⟨tc, ?_, ?_⟩
      · rfl
      · show vocabOf (fitCatAux rest _ ts (dictUpdate d c.1 _)).2.2.2 c.1 = _
        rw [fitCatAux_vocabOf_preserved ts rest _ _ c.1 hc1]
        rw [dictUpdate_vocabOf_self]
        rw [show vocabOf d c.1 = [] from by
          unfold vocabOf
          rw [lookup_eq_none_keys (hfresh c (List.mem_cons_self c rest))]
          rfl]
        rw [vocabUpdate_nil]
        rfl
    | succ i =>
      have hfresh1 : ∀ p ∈ rest, p.1 ∉ (dictUpdate d c.1
          ((npUnique c.2).zip ((List.range (npUnique c.2).length).map (· + tc)))).map
            Prod.fst := by
        intro p hp hmem
        rcases (dictUpdate_keys c.1 _ d p.1).mp hmem with h | h
        · exact hfresh p (List.mem_cons_of_mem c hp) h
        · exact hc1 (h ▸ List.mem_map.mpr ⟨p, hp, rfl⟩)
      exact ih _ _ hnd1 hfresh1 i (by simpa using hi)

/-- Looking a member up in a duplicate-free list zipped with consecutive
indices yields its position plus the offset. -/
theorem lookup_zip_range :
    ∀ (u : List Nat) (off : Nat), u.Nodup →
      ∀ x ∈ u, List.lookup x (u.zip ((List.range u.length).map (· + off)))
        = some (List.indexOf x u + off) := by
  intro u
  induction u with
  | nil => intro off _ x hx; simp at hx
  | cons a rest ih =>
    intro off hnd x hx
    have htail : (List.range (a :: rest).length).map (· + off)
        = (off :: (List.range rest.length).map (· + (off + 1))) := by
      rw [show (a :: rest).length = rest.length + 1 from rfl,
        List.range_succ_eq_map]
      rw [List.map_cons, List.map_map]
      congr 1
      · omega
      · apply List.map_congr_left
        intro m _
        show m.succ + off = m + (off + 1)
        omega
    rw [htail]
    rw [show (a :: rest).zip (off :: (List.range rest.length).map (· + (off + 1)))
      = (a, off) :: rest.zip ((List.range rest.length).map (· + (off + 1))) from rfl]
    rw [List.lookup_cons]
    by_cases hxa : x = a
    · subst hxa
      rw [beq_self_eq_true, List.indexOf_cons_self]
      simp
    · rw [beq_false_of_ne hxa]
      have hxr : x ∈ rest := by
        rcases List.mem_cons.mp hx with h | h
        · exact absurd h hxa
        · exact h
      rw [ih (off + 1) (List.nodup_cons.mp hnd).2 x hxr]
      rw [List.indexOf_cons_ne rest (fun he => hxa he.symm)]
      simp only [Option.some.injEq]
      omega

/-- In an ascending duplicate-free list, a member's position equals the
number of strictly smaller elements. -/
theorem indexOf_sorted_filter :
    ∀ (u : List Nat), u.Sorted (· < ·) →
      ∀ x ∈ u, List.indexOf x u = (u.filter (fun y => y < x)).length := by
  intro u
  induction u with
  | nil => intro _ x hx; simp at hx
  | cons a rest ih =>
    intro hs x hx
    rw [List.sorted_cons] at hs
    by_cases hxa : x = a
    · subst hxa
      rw [List.indexOf_cons_self]
      rw [show List.filter (fun y => decide (y < x)) (x :: rest) = [] from by
        rw [List.filter_eq_nil_iff]
        intro b hb
        simp only [decide_eq_true_eq]
        rcases List.mem_cons.mp hb with h | h
        · omega
        · have := hs.1 b h
          omega]
      rfl
    · have hxr : x ∈ rest := by
        rcases List.mem_cons.mp hx with h | h
        · exact absurd h hxa
        · exact h
      rw [List.indexOf_cons_ne rest (fun he => hxa he.symm)]
      rw [show List.filter (fun y => decide (y < x)) (a :: rest)
          = a :: List.filter (fun y => decide (y < x)) rest from by
        rw [List.filter_cons_of_pos]
        simp only [decide_eq_true_eq]
        exact hs.1 x hxr]
      rw [ih hs.2 x hxr]
      rfl

/-! ### Claims C4 and C8 -/

theorem fit_builder_eq (include_user_item : Bool) (n_users n_items : Nat)
    (cat : List (String × List Nat)) (num : List (String × List ℚ))
    (ts : Nat) (uf itf : List Nat) :
    (fit include_user_item n_users n_items cat num ts uf itf).builder
      = ⟨include_user_item, n_users, n_items,
         (fitCatAux cat (fitNumAux num 0 ts).2.2 ts []).2.2.2,
         (fitCatAux cat (fitNumAux num 0 ts).2.2 ts []).2.2.1,
         (fitCatAux cat (fitNumAux num 0 ts).2.2 ts []).2.2.1
           + (if include_user_item then n_users + n_items else 0)⟩ := by
  cases include_user_item <;> simp [fit] <;> omega

theorem fit_indices_eq (include_user_item : Bool) (n_users n_items : Nat)
    (cat : List (String × List Nat)) (num : List (String × List ℚ))
    (ts : Nat) (uf itf : List Nat) :
    (fit include_user_item n_users n_items cat num ts uf itf).feature_indices
      = (fitNumAux num 0 ts).1
        ++ (fitCatAux cat (fitNumAux num 0 ts).2.2 ts []).1
        ++ (if include_user_item then
            [uf.map (· + (fitCatAux cat (fitNumAux num 0 ts).2.2 ts []).2.2.1),
             itf.map (· + ((fitCatAux cat (fitNumAux num 0 ts).2.2 ts []).2.2.1
               + n_users))]
           else []) := by
  cases include_user_item <;> simp [fit]

theorem transform_fst_eq (b : FeatureBuilder) (tcat : List (String × List Nat))
    (tnum : List (String × List ℚ)) (ts2 : Nat) (tu ti : List Nat) :
    (transform b tcat tnum ts2 tu ti).1.1
      = (transformNumAux tnum 0 ts2).1
        ++ (transformCatAux b.val_index_dict b.feature_size tcat ts2).1
        ++ (if b.include_user_item then
            [tu.map (· + b.total_count), ti.map (· + (b.total_count + b.n_users))]
           else []) := by
  cases hb : b.include_user_item <;> simp [transform, hb]

theorem transformNumAux_eq_fitNumAux (ts : Nat) :
    ∀ (cols : List (String × List ℚ)) (ttc : Nat),
      (transformNumAux cols ttc ts).1 = (fitNumAux cols ttc ts).1 := by
  intro cols
  induction cols with
  | nil => intro ttc; rfl
  | cons c rest ih =>
    intro ttc
    show List.replicate ts ttc :: (transformNumAux rest (ttc + 1) ts).1
      = List.replicate ts ttc :: (fitNumAux rest (ttc + 1) ts).1
    rw [ih]

theorem transformCatAux_fst (fs ts : Nat) :
    ∀ (cols : List (String × List Nat)) (d : VocabDict),
      (transformCatAux d fs cols ts).1
        = cols.map (fun p => p.2.map
            (fun x => (List.lookup x (vocabOf d p.1)).getD fs)) := by
  intro cols
  induction cols with
  | nil => intro d; rfl
  | cons c rest ih =>
    intro d
    show (c.2.map fun x => (List.lookup x (dictTouch d c.1).1).getD fs)
        :: (transformCatAux (dictTouch d c.1).2 fs rest ts).1 = _
    rw [dictTouch_fst, ih, List.map_cons]
    congr 1
    apply List.map_congr_left
    intro p _
    rw [dictTouch_vocabOf]

theorem fitCatAux_fst_length (ts : Nat) :
    ∀ (cols : List (String × List Nat)) (tc : Nat) (d : VocabDict),
      (fitCatAux cols tc ts d).1.length = cols.length := by
  intro cols
  induction cols with
  | nil => intro tc d; rfl
  | cons c rest ih =>
    intro tc d
    show ((c.2.map _) :: (fitCatAux rest _ ts _).1).length = _
    simp [ih]

/-- Transforming the training categorical columns through the frozen
vocabulary reproduces exactly the index columns that `fit` returned. -/
theorem transform_cat_roundtrip (ts fs : Nat)
    (cat : List (String × List Nat)) (tc : Nat)
    (hnd : (cat.map Prod.fst).Nodup) :
    (transformCatAux (fitCatAux cat tc ts []).2.2.2 fs cat ts).1
      = (fitCatAux cat tc ts []).1 := by
  rw [transformCatAux_fst]
  apply List.ext_getElem
  · simp [fitCatAux_fst_length]
  · intro i h1 h2
    have hi : i < cat.length := by simpa using h1
    rcases fitCatAux_column_spec ts cat tc [] hnd (by simp) i hi with
      ⟨off, hcol, hvoc⟩
    have hgd : cat.getD i ("", []) = cat[i] := List.getD_eq_getElem cat _ hi
    rw [List.getElem_map]
    rw [show (fitCatAux cat tc ts []).1[i]
        = (fitCatAux cat tc ts []).1.getD i [] from
      (List.getD_eq_getElem _ _ h2).symm]
    rw [hcol, hgd]
    apply List.map_congr_left
    intro x hx
    rw [← hgd, hvoc]
    have hu : x ∈ npUnique (cat.getD i ("", [])).2 := by
      rw [mem_npUnique, hgd]
      exact hx
    rw [lookup_zip_range _ off (npUnique_nodup _) x hu]
    rfl

/-- C4: vocabulary round-trip — running `transform` on the very columns that
were fitted (same names, same values, same identity features) reproduces the
entire `feature_indices` array that `fit` returned; in particular every raw
categorical value seen during fit maps to exactly the global index assigned
during fit. -/
theorem vocabulary_roundtrip (include_user_item : Bool) (n_users n_items : Nat)
    (cat : List (String × List Nat)) (num : List (String × List ℚ))
    (ts : Nat) (uf itf : List Nat)
    (hnd : (cat.map Prod.fst).Nodup) :
    (transform (fit include_user_item n_users n_items cat num ts uf itf).builder
        cat num ts uf itf).1.1
      = (fit include_user_item n_users n_items cat num ts uf itf).feature_indices := by
  rw [transform_fst_eq, fit_indices_eq, fit_builder_eq]
  rw [transformNumAux_eq_fitNumAux]
  rw [show (⟨include_user_item, n_users, n_items,
      (fitCatAux cat (fitNumAux num 0 ts).2.2 ts []).2.2.2,
      (fitCatAux cat (fitNumAux num 0 ts).2.2 ts []).2.2.1,
      (fitCatAux cat (fitNumAux num 0 ts).2.2 ts []).2.2.1
        + (if include_user_item then n_users + n_items else 0)⟩ :
      FeatureBuilder).val_index_dict
    = (fitCatAux cat (fitNumAux num 0 ts).2.2 ts []).2.2.2 from rfl]
  rw [transform_cat_roundtrip _ _ cat _ hnd]

theorem vocabulary_roundtrip_witness :
    (transform (fit false 0 0 [("a", [5, 7, 5])] [("n", [2, 3, 4])] 3 [] []).builder
        [("a", [5, 7, 5])] [("n", [2, 3, 4])] 3 [] []).1.1
      = (fit false 0 0 [("a", [5, 7, 5])] [("n", [2, 3, 4])] 3 [] []).feature_indices :=
  vocabulary_roundtrip false 0 0 [("a", [5, 7, 5])] [("n", [2, 3, 4])] 3 [] []
    (by decide)

/-- C8: `fit` is deterministic — the embedding is a pure function, so equal
inputs give equal results — and the vocabulary it freezes is canonical: each
categorical column's distinct values receive consecutive indices in
ascending order of the value itself, i.e. the index of a seen value `x` is
the column's offset plus the number of distinct column values smaller
than `x`. -/
theorem fit_deterministic (include_user_item : Bool) (n_users n_items : Nat)
    (cat : List (String × List Nat)) (num : List (String × List ℚ))
    (ts : Nat) (uf itf : List Nat)
    (hnd : (cat.map Prod.fst).Nodup) :
    fit include_user_item n_users n_items cat num ts uf itf
      = fit include_user_item n_users n_items cat num ts uf itf ∧
    ∀ p ∈ cat, ∃ off, ∀ x ∈ p.2,
      List.lookup x (vocabOf
          (fit include_user_item n_users n_items cat num ts uf itf).builder.val_index_dict
          p.1)
        = some (off + ((npUnique p.2).filter (fun y => y < x)).length) := by
  refine ⟨rfl, ?_⟩
  intro p hp
  rcases List.getElem_of_mem hp with ⟨i, hi, hpi⟩
  rcases fitCatAux_column_spec ts cat (fitNumAux num 0 ts).2.2 [] hnd (by simp)
    i hi with ⟨off, _, hvoc⟩
  have hgd : cat.getD i ("", []) = p := by
    rw [List.getD_eq_getElem cat _ hi, hpi]
  refine ⟨off, ?_⟩
  intro x hx
  have hx' : x ∈ (cat.getD i ("", [])).2 := by rw [hgd]; exact hx
  have hu : x ∈ npUnique (cat.getD i ("", [])).2 := (mem_npUnique _ _).mpr hx'
  rw [fit_builder_dict, ← hgd, hvoc]
  rw [lookup_zip_range _ off (npUnique_nodup _) x hu]
  rw [indexOf_sorted_filter _ (npUnique_sorted _) x hu]
  rw [Nat.add_comm]

theorem fit_deterministic_witness :
    ∃ off, ∀ x ∈ [5, 3, 5],
      List.lookup x (vocabOf
          (fit false 0 0 [("a", [5, 3, 5])] [] 1 [] []).builder.val_index_dict "a")
        = some (off + ((npUnique [5, 3, 5]).filter (fun y => y < x)).length) :=
  (fit_deterministic false 0 0 [("a", [5, 3, 5])] [] 1 [] [] (by decide)).2
    ("a", [5, 3, 5]) (by decide)

/-! ### Claim C3: index ranges and the OOV sentinel -/

theorem vocabUpdate_bound {n : Nat} {old new : Vocab}
    (ho : ∀ q ∈ old, q.2 < n) (hn : ∀ q ∈ new, q.2 < n) :
    ∀ q ∈ vocabUpdate old new, q.2 < n := by
  intro q hq
  unfold vocabUpdate at hq
  rcases List.mem_append.mp hq with h | h
  · rcases List.mem_map.mp h with ⟨p, hp, he⟩
    cases hl : List.lookup p.1 new with
    | some w =>
      rw [hl] at he
      have hw : (p.1, w) ∈ new := lookup_mem hl
      rw [← he]
      exact hn (p.1, w) hw
    | none =>
      rw [hl] at he
      rw [← he]
      exact ho p hp
  · exact hn q (List.mem_filter.mp h).1

theorem dictUpdate_bound {n : Nat} (k : String) (kv : Vocab)
    (hkv : ∀ q ∈ kv, q.2 < n) :
    ∀ (d : VocabDict), (∀ p ∈ d, ∀ q ∈ p.2, q.2 < n) →
      ∀ p ∈ dictUpdate d k kv, ∀ q ∈ p.2, q.2 < n := by
  intro d
  induction d with
  | nil =>
    intro _ p hp q hq
    rcases List.mem_singleton.mp hp with rfl
    exact hkv q hq
  | cons c rest ih =>
    intro hd p hp q hq
    by_cases h1 : c.1 = k
    · rw [show dictUpdate (c :: rest) k kv
          = (k, vocabUpdate c.2 kv) :: rest from by
        rw [show c :: rest = (c.1, c.2) :: rest from rfl]
        simp [dictUpdate, h1]] at hp
      rcases List.mem_cons.mp hp with h | h
      · subst h
        exact vocabUpdate_bound (hd c (List.mem_cons_self c rest)) hkv q hq
      · exact hd p (List.mem_cons_of_mem c h) q hq
    · rw [show dictUpdate (c :: rest) k kv = c :: dictUpdate rest k kv from by
        rw [show c :: rest = (c.1, c.2) :: rest from rfl]
        simp [dictUpdate, h1]] at hp
      rcases List.mem_cons.mp hp with h | h
      · subst h
        exact hd p (List.mem_cons_self p rest) q hq
      · exact ih (fun p2 hp2 => hd p2 (List.mem_cons_of_mem c hp2)) p h q hq

theorem fitCatAux_dict_bound (ts : Nat) :
    ∀ (cols : List (String × List Nat)) (tc : Nat) (d : VocabDict),
      (∀ p ∈ d, ∀ q ∈ p.2, q.2 < tc) →
      ∀ p ∈ (fitCatAux cols tc ts d).2.2.2, ∀ q ∈ p.2,
        q.2 < (fitCatAux cols tc ts d).2.2.1 := by
  intro cols
  induction cols with
  | nil => intro tc d hd p hp q hq; exact hd p hp q hq
  | cons c rest ih =>
    intro tc d hd p hp q hq
    have hkv : ∀ q2 ∈ (npUnique c.2).zip
        ((List.range (npUnique c.2).length).map (· + tc)),
        q2.2 < tc + (npUnique c.2).length := by
      intro q2 hq2
      have h2 := (List.of_mem_zip (a := q2.1) (b := q2.2) (by simpa using hq2)).2
      rcases List.mem_map.mp h2 with ⟨r, hr, he⟩
      rw [← he]
      have := List.mem_range.mp hr
      omega
    have hd1 : ∀ p2 ∈ dictUpdate d c.1 ((npUnique c.2).zip
        ((List.range (npUnique c.2).length).map (· + tc))), ∀ q2 ∈ p2.2,
        q2.2 < tc + (npUnique c.2).length := by
      apply dictUpdate_bound _ _ hkv
      intro p2 hp2 q2 hq2
      have := hd p2 hp2 q2 hq2
      omega
    exact ih (tc + (npUnique c.2).length) _ hd1 p hp q hq

theorem transformNumAux_cols (ts : Nat) :
    ∀ (cols : List (String × List ℚ)) (ttc : Nat),
      ∀ col ∈ (transformNumAux cols ttc ts).1,
        ∃ j, ttc ≤ j ∧ j < ttc + cols.length ∧ col = List.replicate ts j := by
  intro cols
  induction cols with
  | nil => intro ttc col hcol; simp [transformNumAux] at hcol
  | cons c rest ih =>
    intro ttc col hcol
    rcases List.mem_cons.mp hcol with h | h
    · exact ⟨ttc, Nat.le_refl _, by simp, h⟩
    · rcases ih (ttc + 1) col h with ⟨j, h1, h2, h3⟩
      exact ⟨j, by omega, by simp; omega, h3⟩

/-- Every index emitted by `transform` is `< feature_size` or exactly
`feature_size`, for any builder whose frozen vocabulary respects its own
`total_count` (as every fitted builder does). -/
theorem transform_range_generic (b : FeatureBuilder)
    (tcat : List (String × List Nat)) (tnum : List (String × List ℚ))
    (ts2 : Nat) (tu ti : List Nat)
    (hdict : ∀ p ∈ b.val_index_dict, ∀ q ∈ p.2, q.2 < b.total_count)
    (htc : b.total_count ≤ b.feature_size)
    (hnum2 : tnum.length ≤ b.total_count)
    (hid : b.include_user_item = true →
      b.total_count + b.n_users + b.n_items ≤ b.feature_size)
    (hu : ∀ u ∈ tu, u < b.n_users) (hi : ∀ v ∈ ti, v < b.n_items) :
    ∀ col ∈ (transform b tcat tnum ts2 tu ti).1.1, ∀ e ∈ col,
      e < b.feature_size ∨ e = b.feature_size := by
  intro col hcol e he
  rw [transform_fst_eq] at hcol
  rcases List.mem_append.mp hcol with hcol | hcol
  · rcases List.mem_append.mp hcol with hcol | hcol
    · rcases transformNumAux_cols ts2 tnum 0 col hcol with ⟨j, _, h2, h3⟩
      subst h3
      have hej : e = j := List.eq_of_mem_replicate he
      left
      omega
    · rw [transformCatAux_fst] at hcol
      rcases List.mem_map.mp hcol with ⟨p, _, he2⟩
      subst he2
      rcases List.mem_map.mp he with ⟨x, _, he3⟩
      cases hl : List.lookup x (vocabOf b.val_index_dict p.1) with
      | none =>
        right
        rw [← he3, hl]
        rfl
      | some w =>
        left
        rw [← he3, hl]
        show w < b.feature_size
        have hvoc : vocabOf b.val_index_dict p.1
            = (List.lookup p.1 b.val_index_dict).getD [] := rfl
        cases hd : List.lookup p.1 b.val_index_dict with
        | none =>
          rw [hvoc, hd] at hl
          exact absurd hl (by simp [List.lookup])
        | some voc =>
          have hmem : (p.1, voc) ∈ b.val_index_dict := lookup_mem hd
          rw [hvoc, hd] at hl
          have hw : (x, w) ∈ voc := lookup_mem hl
          have := hdict (p.1, voc) hmem (x, w) hw
          omega
  · cases hb : b.include_user_item with
    | false => rw [hb] at hcol; simp at hcol
    | true =>
      rw [hb] at hcol
      have hfs := hid hb
      rcases List.mem_cons.mp hcol with h | h
      · subst h
        rcases List.mem_map.mp he with ⟨u, hu2, he2⟩
        have := hu u hu2
        left
        omega
      · rcases List.mem_singleton.mp h with rfl
        rcases List.mem_map.mp he with ⟨v, hv2, he2⟩
        have := hi v hv2
        left
        omega

/-- The `i`-th categorical output column of `transform` sits at position
`tnum.length + i` and is exactly the vocabulary lookup with the
`feature_size` fallback. -/
theorem transform_cat_col_getD (b : FeatureBuilder)
    (tcat : List (String × List Nat)) (tnum : List (String × List ℚ))
    (ts2 : Nat) (tu ti : List Nat) (i : Nat) (hi2 : i < tcat.length) :
    (transform b tcat tnum ts2 tu ti).1.1.getD (tnum.length + i) []
      = (tcat.getD i ("", [])).2.map (fun x =>
          (List.lookup x (vocabOf b.val_index_dict (tcat.getD i ("", [])).1)).getD
            b.feature_size) := by
  rw [transform_fst_eq, transformCatAux_fst]
  rw [List.append_assoc]
  rw [List.getD_append_right (transformNumAux tnum 0 ts2).1 _ _ _
    (by rw [transformNumAux_length]; omega)]
  rw [transformNumAux_length]
  rw [show tnum.length + i - tnum.length = i from by omega]
  rw [List.getD_append _ _ _ i (by simpa using hi2)]
  rw [List.getD_eq_getElem _ _ (by simpa using hi2), List.getElem_map,
    ← List.getD_eq_getElem tcat ("", []) hi2]

/-- C3: on a fitted builder, every index `transform` produces is inside
`[0, feature_size)` (seen categorical value, numerical slot, in-range
identity slot) or exactly `feature_size`, and every categorical output
column is the frozen-vocabulary lookup whose misses (values absent from
that column's vocabulary) resolve to exactly the sentinel `feature_size` —
no error, no dropped row. -/
theorem transform_oov_range (include_user_item : Bool) (n_users n_items : Nat)
    (cat : List (String × List Nat)) (num : List (String × List ℚ))
    (ts : Nat) (uf itf : List Nat)
    (tcat : List (String × List Nat)) (tnum : List (String × List ℚ))
    (ts2 : Nat) (tu ti : List Nat)
    (hnum : tnum.length ≤ num.length)
    (hu : ∀ u ∈ tu, u < n_users) (hi : ∀ v ∈ ti, v < n_items) :
    (∀ col ∈ (transform
        (fit include_user_item n_users n_items cat num ts uf itf).builder
        tcat tnum ts2 tu ti).1.1, ∀ e ∈ col,
      e < (fit include_user_item n_users n_items cat num ts uf itf).builder.feature_size
      ∨ e = (fit include_user_item n_users n_items cat num ts uf itf).builder.feature_size) ∧
    (∀ i, i < tcat.length →
      (transform (fit include_user_item n_users n_items cat num ts uf itf).builder
          tcat tnum ts2 tu ti).1.1.getD (tnum.length + i) []
        = (tcat.getD i ("", [])).2.map (fun x =>
            (List.lookup x (vocabOf
              (fit include_user_item n_users n_items cat num ts uf itf).builder.val_index_dict
              (tcat.getD i ("", [])).1)).getD
            (fit include_user_item n_users n_items cat num ts uf itf).builder.feature_size)) := by
  constructor
  · apply transform_range_generic
    · rw [fit_builder_eq]
      exact fitCatAux_dict_bound ts cat _ [] (by simp)
    · rw [fit_builder_eq]
      show (fitCatAux cat (fitNumAux num 0 ts).2.2 ts []).2.2.1
        ≤ (fitCatAux cat (fitNumAux num 0 ts).2.2 ts []).2.2.1 + _
      omega
    · rw [fit_builder_eq]
      show tnum.length ≤ (fitCatAux cat (fitNumAux num 0 ts).2.2 ts []).2.2.1
      rw [fitCatAux_total, fitNumAux_total]
      omega
    · intro hb
      have hb2 : include_user_item = true := by
        rw [fit_builder_eq] at hb
        exact hb
      subst hb2
      rw [fit_builder_eq]
      show (fitCatAux cat (fitNumAux num 0 ts).2.2 ts []).2.2.1 + n_users + n_items
        ≤ (fitCatAux cat (fitNumAux num 0 ts).2.2 ts []).2.2.1
          + (if true then n_users + n_items else 0)
      simp
      omega
    · simpa [fit_builder_eq] using hu
    · simpa [fit_builder_eq] using hi
  · intro i hi2
    exact transform_cat_col_getD _ tcat tnum ts2 tu ti i hi2

theorem transform_oov_range_witness :
    (∀ col ∈ (transform (fit false 0 0 [("a", [5, 5])] [] 2 [] []).builder
        [("a", [5, 9])] [] 1 [] []).1.1, ∀ e ∈ col,
      e < (fit false 0 0 [("a", [5, 5])] [] 2 [] []).builder.feature_size
      ∨ e = (fit false 0 0 [("a", [5, 5])] [] 2 [] []).builder.feature_size) ∧
    (∀ i, i < ([("a", [5, 9])] : List (String × List Nat)).length →
      (transform (fit false 0 0 [("a", [5, 5])] [] 2 [] []).builder
          [("a", [5, 9])] [] 1 [] []).1.1.getD (List.length ([] : List (String × List ℚ)) + i) []
        = (([("a", [5, 9])] : List (String × List Nat)).getD i ("", [])).2.map (fun x =>
            (List.lookup x (vocabOf
              (fit false 0 0 [("a", [5, 5])] [] 2 [] []).builder.val_index_dict
              (([("a", [5, 9])] : List (String × List Nat)).getD i ("", [])).1)).getD
            (fit false 0 0 [("a", [5, 5])] [] 2 [] []).builder.feature_size)) :=
  transform_oov_range false 0 0 [("a", [5, 5])] [] 2 [] [] [("a", [5, 9])] [] 1 [] []
    (by decide) (by decide) (by decide)

/-! ### Claim C7: column-order invariance of the reindex step -/

theorem argsort_map_getD (l : List Nat) (n : Nat)
    (h : List.Perm l (List.range n)) :
    (argsort l).map (fun i => l.getD i 0) = List.range n := by
  have hperm1 : List.Perm ((argsort l).map (fun i => l.getD i 0))
      ((List.range l.length).map (fun i => l.getD i 0)) :=
    (argsort_perm l).map _
  rw [map_getD_range l 0] at hperm1
  have hperm2 : List.Perm ((argsort l).map (fun i => l.getD i 0))
      (List.range n) := hperm1.trans h
  have hsorted : List.Pairwise (· ≤ ·) ((argsort l).map (fun i => l.getD i 0)) := by
    rw [List.pairwise_map]
    exact argsort_pairwise l
  exact List.eq_of_perm_of_sorted hperm2 hsorted (List.pairwise_le_range n)

theorem colReindex_eq_argsort (l : List Nat) : colReindex l = argsort l := by
  unfold colReindex
  rw [List.map_congr_left (g := fun i => i) (fun i hi => by
    have hmem : i ∈ List.range l.length := ((argsort_perm l).mem_iff).mp hi
    exact getD_range 0 (List.mem_range.mp hmem))]
  simp

/-- C7: for an arbitrary split of the original columns into a user-side
group and an item-side group (`userCols ++ itemCols` a permutation of the
original positions), applying the `col_reindex` permutation computed by
argsort of the concatenated original column positions to the row built by
concatenating the user-side projection with the item-side projection
reproduces the original row — the very step both
`_sparse_negative_sampling` (`α = Nat`) and `_dense_negative_sampling`
(`α = ℚ`) perform on every row. -/
theorem column_order_invariance {α : Type _} (orig : List α) (d : α)
    (userCols itemCols : List Nat)
    (hperm : List.Perm (userCols ++ itemCols) (List.range orig.length)) :
    reindexRow (userCols.map (fun c => orig.getD c d)
        ++ itemCols.map (fun c => orig.getD c d))
      (colReindex (userCols ++ itemCols)) d = orig := by
  have hmap : userCols.map (fun c => orig.getD c d)
        ++ itemCols.map (fun c => orig.getD c d)
      = (userCols ++ itemCols).map (fun c => orig.getD c d) := by
    rw [List.map_append]
  rw [hmap, colReindex_eq_argsort]
  unfold reindexRow
  rw [List.map_congr_left
    (g := fun c => orig.getD ((userCols ++ itemCols).getD c 0) d) (fun c hc => by
      have hc2 : c ∈ List.range (userCols ++ itemCols).length :=
        ((argsort_perm (userCols ++ itemCols)).mem_iff).mp hc
      have hc3 : c < (userCols ++ itemCols).length := List.mem_range.mp hc2
      rw [List.getD_eq_getElem _ _ (by simpa using hc3), List.getElem_map,
        ← List.getD_eq_getElem (userCols ++ itemCols) 0 hc3])]
  rw [show ((argsort (userCols ++ itemCols)).map
      (fun c => orig.getD ((userCols ++ itemCols).getD c 0) d))
    = ((argsort (userCols ++ itemCols)).map
        (fun c => (userCols ++ itemCols).getD c 0)).map
      (fun i => orig.getD i d) from by rw [List.map_map]; rfl]
  rw [argsort_map_getD (userCols ++ itemCols) orig.length hperm]
  exact map_getD_range orig d

theorem column_order_invariance_witness :
    reindexRow (([0, 2] : List Nat).map
        (fun c => ([10, 20, 30, 40] : List Nat).getD c 0)
        ++ ([1, 3] : List Nat).map
        (fun c => ([10, 20, 30, 40] : List Nat).getD c 0))
      (colReindex ([0, 2] ++ [1, 3])) 0 = [10, 20, 30, 40] :=
  column_order_invariance [10, 20, 30, 40] 0 [0, 2] [1, 3] (by decide)

/-! ### Claim C2: rejection sampling -/

theorem drawOne_spec (consumed : List Nat) (rng : Nat → Nat) :
    ∀ (fuel pos x pos1 : Nat),
      drawOne consumed rng pos fuel = some (x, pos1) →
      x ∉ consumed ∧ ∃ t, x = rng t := by
  intro fuel
  induction fuel with
  | zero => intro pos x pos1 h; exact absurd h (by simp [drawOne])
  | succ fuel ih =>
    intro pos x pos1 h
    unfold drawOne at h
    by_cases hc : rng pos ∈ consumed
    · rw [if_pos hc] at h
      exact ih (pos + 1) x pos1 h
    · rw [if_neg hc] at h
      injection h with h1
      cases h1
      exact ⟨hc, pos, rfl⟩

theorem drawNegs_spec (consumed : List Nat) (rng : Nat → Nat) (fuel : Nat) :
    ∀ (count pos : Nat) (xs : List Nat) (pos2 : Nat),
      drawNegs consumed rng pos count fuel = some (xs, pos2) →
      xs.length = count ∧ ∀ x ∈ xs, x ∉ consumed ∧ ∃ t, x = rng t := by
  intro count
  induction count with
  | zero =>
    intro pos xs pos2 h
    unfold drawNegs at h
    injection h with h1
    cases h1
    exact ⟨rfl, by simp⟩
  | succ count ih =>
    intro pos xs pos2 h
    unfold drawNegs at h
    split at h
    · exact Option.noConfusion h
    · rename_i x pos1 hdo
      split at h
      · exact Option.noConfusion h
      · rename_i xs1 p2 hdn
        injection h with h1
        cases h1
        rcases ih pos1 xs1 _ hdn with ⟨hl, hm⟩
        refine ⟨by simp [hl], ?_⟩
        intro y hy
        rcases List.mem_cons.mp hy with hy | hy
        · exact hy ▸ drawOne_spec consumed rng fuel pos x pos1 hdo
        · exact hm y hy

theorem sampleItemsAux_spec (consumedOf : Nat → List Nat) (rng : Nat → Nat)
    (num_neg fuel : Nat) :
    ∀ (pairs : List (Nat × Nat)) (pos : Nat) (out : List Nat),
      sampleItemsAux pairs consumedOf num_neg rng pos fuel = some out →
      out.length = pairs.length * (num_neg + 1) ∧
      ∀ k, k < pairs.length →
        out.getD (k * (num_neg + 1)) 0 = (pairs.getD k (0, 0)).2 ∧
        ∀ r, 1 ≤ r → r ≤ num_neg →
          out.getD (k * (num_neg + 1) + r) 0 ∉ consumedOf (pairs.getD k (0, 0)).1 ∧
          ∃ t, out.getD (k * (num_neg + 1) + r) 0 = rng t := by
  intro pairs
  induction pairs with
  | nil =>
    intro pos out h
    unfold sampleItemsAux at h
    injection h with h1
    subst h1
    exact ⟨by simp, fun k hk => absurd hk (by simp)⟩
  | cons p rest ih =>
    intro pos out h
    rcases p with ⟨u, i⟩
    unfold sampleItemsAux at h
    split at h
    · exact Option.noConfusion h
    · rename_i negs pos1 hdn
      split at h
      · exact Option.noConfusion h
      · rename_i out1 hsa
        injection h with h1
        subst h1
        rcases drawNegs_spec (consumedOf u) rng fuel num_neg pos negs pos1 hdn
          with ⟨hnl, hnm⟩
        rcases ih pos1 out1 hsa with ⟨hl1, hk1⟩
        have hhead : ((i :: negs) ++ out1).length = (num_neg + 1) + out1.length := by
          simp [hnl]
          omega
        constructor
        · rw [hhead, hl1, List.length_cons]
          ring
        · intro k hk
          cases k with
          | zero =>
            constructor
            · rw [show (0 : Nat) * (num_neg + 1) = 0 from by ring]
              rw [List.getD_append _ _ _ 0 (by simp)]
              rfl
            · intro r h1r hrn
              rw [show (0 : Nat) * (num_neg + 1) + r = r from by ring]
              rw [List.getD_append _ _ _ r (by simp [hnl]; omega)]
              rw [show r = (r - 1) + 1 from by omega, List.getD_cons_succ]
              have hr1 : r - 1 < negs.length := by omega
              have hmem : negs.getD (r - 1) 0 ∈ negs := by
                rw [List.getD_eq_getElem _ _ hr1]
                exact List.getElem_mem hr1
              exact hnm _ hmem
          | succ k =>
            have hskip : ∀ r, (((i :: negs) ++ out1).getD
                ((k + 1) * (num_neg + 1) + r) 0)
                = out1.getD (k * (num_neg + 1) + r) 0 := by
              intro r
              have hexp : (k + 1) * (num_neg + 1)
                  = (num_neg + 1) + k * (num_neg + 1) := by ring
              rw [List.getD_append_right _ _ _ _ (by simp [hnl]; omega)]
              congr 1
              simp [hnl]
              omega
            have hpair : ∀ dflt, ((u, i) :: rest).getD (k + 1) dflt
                = rest.getD k dflt := by
              intro dflt
              rfl
            have hk2 : k < rest.length := by simpa using hk
            rcases hk1 k hk2 with ⟨hpos, hneg⟩
            constructor
            · rw [show (k + 1) * (num_neg + 1) = (k + 1) * (num_neg + 1) + 0
                from by ring, hskip 0, hpair]
              rw [show k * (num_neg + 1) + 0 = k * (num_neg + 1) from by ring]
              exact hpos
            · intro r h1r hrn
              rw [hskip r, hpair]
              exact hneg r h1r hrn

theorem npRepeatRows_length {α : Type _} (k : Nat) :
    ∀ (rows : List (List α)), (npRepeatRows rows k).length = rows.length * k := by
  intro rows
  induction rows with
  | nil => simp [npRepeatRows]
  | cons r rest ih =>
    show (List.replicate k r ++ npRepeatRows rest k).length = _
    simp [ih]
    ring

theorem sparse_negative_sampling_length (ds : NSDataset) (info : DataInfo)
    (num_neg : Nat) (itemIdx : List Nat) :
    (sparse_negative_sampling ds info num_neg itemIdx).length
      = min (ds.sparse_indices.length * (num_neg + 1)) itemIdx.length := by
  unfold sparse_negative_sampling
  simp [List.length_zipWith, npRepeatRows_length, npTake]

theorem dense_negative_sampling_length (ds : NSDataset) (info : DataInfo)
    (num_neg : Nat) (itemIdx : List Nat) :
    (dense_negative_sampling ds info num_neg itemIdx).length
      = min (ds.dense_values.length * (num_neg + 1)) itemIdx.length := by
  unfold dense_negative_sampling
  simp [List.length_zipWith, npRepeatRows_length, npTakeQ]

/-- C2: whenever the rejection loops of `sample_items` finish (the spec's
"proper subset" precondition is what makes finishing possible; in the
embedding the draw stream and fuel witness it), the output lists, for the
`k`-th positive interaction `(u, i)`, the original item `i` first and then
exactly `num_neg` negatives, each drawn from `[0, n_items)` and none in
`u`'s consumed set; the total count of emitted item indices is
`len(dataset) * (num_neg + 1)`, and so is the row count of the sparse
array assembled from them. -/
theorem sample_items_spec (ds : NSDataset) (info : DataInfo) (num_neg : Nat)
    (rng : Nat → Nat) (fuel : Nat) (out : List Nat)
    (hr : ∀ t, rng t < info.n_items)
    (hlen : ds.item_indices.length = ds.user_indices.length)
    (hsp : ds.sparse_indices.length = dsLen ds)
    (hs : sample_items ds num_neg rng fuel = some out) :
    out.length = dsLen ds * (num_neg + 1) ∧
    (∀ k, k < dsLen ds →
      out.getD (k * (num_neg + 1)) 0 = ds.item_indices.getD k 0 ∧
      ∀ r, 1 ≤ r → r ≤ num_neg →
        out.getD (k * (num_neg + 1) + r) 0 < info.n_items ∧
        out.getD (k * (num_neg + 1) + r) 0
          ∉ ds.train_user_consumed (ds.user_indices.getD k 0)) ∧
    (sparse_negative_sampling ds info num_neg out).length
      = dsLen ds * (num_neg + 1) := by
  unfold sample_items at hs
  rcases sampleItemsAux_spec ds.train_user_consumed rng num_neg fuel
    (ds.user_indices.zip ds.item_indices) 0 out hs with ⟨hl, hk⟩
  have hzlen : (ds.user_indices.zip ds.item_indices).length = dsLen ds := by
    rw [List.length_zip, hlen]
    exact Nat.min_self _
  rw [hzlen] at hl hk
  have hpair : ∀ k, k < dsLen ds →
      (ds.user_indices.zip ds.item_indices).getD k (0, 0)
        = (ds.user_indices.getD k 0, ds.item_indices.getD k 0) := by
    intro k hkd
    have hk1 : k < (ds.user_indices.zip ds.item_indices).length := by
      rw [hzlen]; exact hkd
    rw [List.getD_eq_getElem _ _ hk1, List.getElem_zip]
    rw [List.getD_eq_getElem _ _ (by exact hkd),
      List.getD_eq_getElem _ _ (by rw [hlen]; exact hkd)]
  refine ⟨hl, ?_, ?_⟩
  · intro k hkd
    rcases hk k hkd with ⟨hpos, hneg⟩
    rw [hpair k hkd] at hpos hneg
    refine ⟨hpos, ?_⟩
    intro r h1r hrn
    rcases hneg r h1r hrn with ⟨hnc, t, ht⟩
    exact ⟨ht ▸ hr t, hnc⟩
  · rw [sparse_negative_sampling_length, hsp, hl]
    exact Nat.min_self _

theorem sample_items_spec_witness :
    ([1, 0] : List Nat).getD (0 * (1 + 1)) 0
      = (⟨[0], [1], [[3]], [[2]], fun _ => [1]⟩ : NSDataset).item_indices.getD 0 0 :=
  ((sample_items_spec ⟨[0], [1], [[3]], [[2]], fun _ => [1]⟩
      ⟨2, [], [], [], [], [], []⟩ 1 (fun t => t % 2) 3 [1, 0]
      (fun t => Nat.mod_lt t (by decide)) (by decide) (by decide)
      (by decide)).2.1 0 (by decide)).1

/-! ### Claim C1: shuffle consistency of `__call__` -/

theorem applyMask_length {α : Type _} (rows : List α) (mask : List Nat) (d : α) :
    (applyMask rows mask d).length = mask.length := by
  simp [applyMask]

theorem applyMask_getD {α : Type _} (rows : List α) (mask : List Nat) (d : α)
    (k : Nat) (hk : k < mask.length) :
    (applyMask rows mask d).getD k d = rows.getD (mask.getD k 0) d := by
  unfold applyMask
  rw [List.getD_eq_getElem _ _ (by simpa using hk), List.getElem_map,
    ← List.getD_eq_getElem mask 0 hk]

/-- C1: with `random=True`, `__call__` draws one `random_mask` permutation of
length `len(dataset) * (num_neg + 1)` and applies it identically to the
sparse array, the dense array (when `dense=True`), and the label array: row
`k` of every output equals row `mask[k]` of the corresponding unshuffled
array, so the three outputs stay aligned on the same synthetic example. -/
theorem shuffle_consistency (ds : NSDataset) (info : DataInfo) (num_neg : Nat)
    (mask : List Nat) (rng : Nat → Nat) (fuel : Nat) (dense : Bool)
    (itemIdx : List Nat) (sparseArr : List (List Nat))
    (denseArr : Option (List (List ℚ))) (labelArr : List ℚ)
    (hmask : List.Perm mask (List.range (dsLen ds * (num_neg + 1))))
    (hsample : sample_items ds num_neg rng fuel = some itemIdx)
    (hcall : negSamplingCall ds info num_neg mask rng fuel dense true
      = some (sparseArr, denseArr, labelArr)) :
    sparseArr.length = dsLen ds * (num_neg + 1) ∧
    labelArr.length = dsLen ds * (num_neg + 1) ∧
    (dense = true → ∃ dn, denseArr = some dn ∧
      dn.length = dsLen ds * (num_neg + 1)) ∧
    (dense = false → denseArr = none) ∧
    ∀ k, k < dsLen ds * (num_neg + 1) →
      sparseArr.getD k []
          = (sparse_negative_sampling ds info num_neg itemIdx).getD
              (mask.getD k 0) [] ∧
      labelArr.getD k 0
          = (label_negative_sampling (dsLen ds) num_neg).getD (mask.getD k 0) 0 ∧
      (∀ dn, denseArr = some dn →
        dn.getD k []
          = (dense_negative_sampling ds info num_neg itemIdx).getD
              (mask.getD k 0) []) := by
  have hmlen : mask.length = dsLen ds * (num_neg + 1) := by
    have h := hmask.length_eq
    simpa using h
  cases dense with
  | true =>
    simp only [negSamplingCall, hsample, if_true] at hcall
    injection hcall with h1
    cases h1
    refine ⟨by rw [applyMask_length, hmlen], by rw [applyMask_length, hmlen],
      fun _ => ⟨_, rfl, by rw [applyMask_length, hmlen]⟩,
      fun hf => Bool.noConfusion hf, ?_⟩
    intro k hk
    have hk2 : k < mask.length := by rw [hmlen]; exact hk
    refine ⟨applyMask_getD _ mask [] k hk2, applyMask_getD _ mask 0 k hk2, ?_⟩
    intro dn hdn
    injection hdn with h2
    rw [← h2]
    exact applyMask_getD _ mask [] k hk2
  | false =>
    simp only [negSamplingCall, hsample, if_true] at hcall
    injection hcall with h1
    cases h1
    refine ⟨by rw [applyMask_length, hmlen], by rw [applyMask_length, hmlen],
      fun ht => Bool.noConfusion ht, fun _ => rfl, ?_⟩
    intro k hk
    have hk2 : k < mask.length := by rw [hmlen]; exact hk
    refine ⟨applyMask_getD _ mask [] k hk2, applyMask_getD _ mask 0 k hk2, ?_⟩
    intro dn hdn
    exact Option.noConfusion hdn

theorem shuffle_consistency_witness :
    ([[3, 9], [3, 9]] : List (List Nat)).getD 0 []
      = (sparse_negative_sampling ⟨[0], [0], [[3]], [[5]], fun _ => []⟩
          ⟨1, [0], [1], [[9]], [0], [1], [[7]]⟩ 1 [0, 0]).getD
          (([1, 0] : List Nat).getD 0 0) [] :=
  ((shuffle_consistency ⟨[0], [0], [[3]], [[5]], fun _ => []⟩
      ⟨1, [0], [1], [[9]], [0], [1], [[7]]⟩ 1 [1, 0] (fun _ => 0) 1 true
      [0, 0] [[3, 9], [3, 9]] (some [[5, 7], [5, 7]]) [0, 1]
      (by decide) (by decide) (by decide)).2.2.2.2 0 (by decide)).1

end LibRecommender
